import Mathlib

/-!
Verification development for the `antidox.doxy` module: an embedding of its
data model (refids, targets, the element/hierarchy store) and of its main
operations (index building, target resolution, serialization), together with
theorems checking the module's documented behaviour.

Modelling conventions:
* Python `str` values are embedded as `List Char` (abbreviated `PStr`), so
  that all operations are structurally recursive and kernel-evaluable.
  `\w` and the ASCII character classes of the reverse-engineered regexes are
  modelled over ASCII, which is the alphabet doxygen refids and C identifiers
  are drawn from.
* Python exceptions are embedded as an error inductive `PyErr`; fallible
  operations return `Except PyErr _`.  Exception message payloads are elided
  (no claim concerns them); the `AmbiguousTarget` candidate-list payload is
  kept.
* The SQLite tables `elements` and `hierarchy` are embedded as Lean lists;
  `PRIMARY KEY ... ON CONFLICT IGNORE` and `UNIQUE ... ON CONFLICT REPLACE`
  and the child foreign key (with `PRAGMA foreign_keys = 1`) are modelled
  explicitly in the insert operations.  SQL queries of `doxy.py` are
  translated clause by clause into list computations; where SQLite leaves row
  order unspecified the model fixes table order, which no claim depends on.
-/

/-- Python strings, embedded as character lists. -/
abbrev PStr := List Char

/-- Convert a Lean string literal to an embedded Python string. -/
def toL (s : String) : PStr := s.data

/-- Python `str.split(sep)` for a one-character separator `c`. -/
def splitOn1 (c : Char) : PStr → List PStr
  | [] => [[]]
  | a :: rest =>
    if a = c then [] :: splitOn1 c rest
    else
      match splitOn1 c rest with
      | [] => [[a]]
      | h :: t => (a :: h) :: t

/-- Python `str.split(sep)` for a two-character separator `c1 c2`
(non-overlapping, leftmost first, as in CPython). -/
def splitOn2 (c1 c2 : Char) : PStr → List PStr
  | [] => [[]]
  | [a] => [[a]]
  | a :: b :: rest =>
    if a = c1 ∧ b = c2 then [] :: splitOn2 c1 c2 rest
    else
      match splitOn2 c1 c2 (b :: rest) with
      | [] => [[a]]
      | h :: t => (a :: h) :: t

/-- Source `_barename`: strip the namespace part of a name
(`n.split('::')[-1]`; `split` never returns an empty list). -/
def barename (n : PStr) : PStr := (splitOn2 ':' ':' n).getLastD []

/-- Components of a POSIX path in the sense of `pathlib.PurePosixPath.parts`:
empty components and `"."` components are dropped, a leading `/` becomes a
root component `"/"`.  (The CPython special case for exactly two leading
slashes is not modelled; no doxygen name has that form.) -/
def pathParts (s : PStr) : List PStr :=
  let comps := (splitOn1 '/' s).filter (fun c => c ≠ [] ∧ c ≠ ['.'])
  if s.headI = '/' ∧ s ≠ [] then ['/'] :: comps else comps

/-- Source `_match_path(p1, p2)`: compare two paths from right to left and
return `true` if they could refer to the same file.  A `none`/empty second
argument always matches.  If `p2` starts with `"."` (and its first surviving
component does not), `minlen` is `0`, and Python's `part1[-0:] == part2[-0:]`
compares the FULL tuples — that quirk is mirrored by the `minlen = 0` branch
(which is also reached when either parts tuple is empty). -/
def matchPath (p1 : PStr) (p2 : Option PStr) : Bool :=
  match p2 with
  | none => true
  | some p2 =>
    if p2 = [] then true
    else
      let part1 := pathParts p1
      let part2 := pathParts p2
      let minlen :=
        if p2.headI = '.' ∧ part2 ≠ [] ∧ part2.headI.headI ≠ '.' then 0
        else min part1.length part2.length
      if minlen = 0 then part1 = part2
      else part1.drop (part1.length - minlen) = part2.drop (part2.length - minlen)

/-- Source `Kind`: combination of Doxygen's "CompoundKind" and "MemberKind". -/
inductive Kind where
  | CLASS | STRUCT | UNION | EXCEPTION | FILE | NAMESPACE | GROUP | PAGE
  | EXAMPLE | DIR | DEFINE | PROPERTY | VARIABLE | TYPEDEF | ENUM | ENUMVALUE
  | FUNCTION | FRIEND
deriving DecidableEq, Repr

/-- Source `Kind.compounds()`. -/
def Kind.compounds : List Kind :=
  [.CLASS, .STRUCT, .UNION, .EXCEPTION, .FILE, .NAMESPACE, .GROUP, .PAGE, .DIR]

/-- Source `Kind.synthetic_compounds()`. -/
def Kind.synCompounds : List Kind := [.GROUP, .PAGE, .DIR]

/-- Source `Kind.subordinate()`. -/
def Kind.subKinds : List Kind := [.ENUMVALUE]

/-- Uppercase member-name table of `Kind.__members__`, used by
`Kind.tag_supported` and `Kind.from_attr`. -/
def Kind.names : List (PStr × Kind) :=
  [(toL "CLASS", .CLASS), (toL "STRUCT", .STRUCT), (toL "UNION", .UNION),
   (toL "EXCEPTION", .EXCEPTION), (toL "FILE", .FILE),
   (toL "NAMESPACE", .NAMESPACE), (toL "GROUP", .GROUP), (toL "PAGE", .PAGE),
   (toL "EXAMPLE", .EXAMPLE), (toL "DIR", .DIR), (toL "DEFINE", .DEFINE),
   (toL "PROPERTY", .PROPERTY), (toL "VARIABLE", .VARIABLE),
   (toL "TYPEDEF", .TYPEDEF), (toL "ENUM", .ENUM),
   (toL "ENUMVALUE", .ENUMVALUE), (toL "FUNCTION", .FUNCTION),
   (toL "FRIEND", .FRIEND)]

/-- Source `Kind.from_attr`: convert an xml "kind" attribute to a `Kind`
(`attr.upper()` looked up among the member names); `none` models the
`NotImplementedError` branch. -/
def Kind.fromAttr (attr : PStr) : Option Kind :=
  (Kind.names.find? (fun p => p.1 = attr.map Char.toUpper)).map Prod.snd

/-- Source `Kind.tag_supported`: check whether an xml "kind" attribute is
supported (`attr.upper() in cls.__members__`). -/
def Kind.tagSupported (attr : PStr) : Bool := (Kind.fromAttr attr).isSome

/-- Source `RefId`: reverse-engineered Doxygen refid, an (optional) `pfx`
part and an `id_` part (fields `prefix`/`id_` in the source). -/
structure RefId where
  pfx : PStr
  id_ : PStr
deriving DecidableEq, Repr

/-- Source `RefId.__str__`: `"{}_1{}".format(prefix, id_) if prefix else id_`. -/
def RefId.str (r : RefId) : PStr :=
  if r.pfx ≠ [] then r.pfx ++ ['_', '1'] ++ r.id_ else r.id_

/-- Character class `[A-Za-z0-9-]` of `_refid_re`. -/
def idChar (c : Char) : Bool := c.isAlpha ∨ c.isDigit ∨ c = '-'

/-- Character class `\w` (ASCII view) used by the prefix part of `_refid_re`. -/
def wordChar (c : Char) : Bool := c.isAlpha ∨ c.isDigit ∨ c = '_'

/-- Acceptance by `((?:[A-Za-z0-9-]+)|(?:_[^1]))+` minus the non-emptiness
requirement: scanning left to right, every `_` starts a two-character block
`_[^1]` and every other character must be in `[A-Za-z0-9-]`.  Block
boundaries of the regex are uniquely determined by the `_` positions, so this
scan accepts exactly the strings the regex does. -/
def idOkAux : PStr → Bool
  | [] => true
  | '_' :: c :: rest => c ≠ '1' ∧ idOkAux rest
  | ['_'] => false
  | c :: rest => idChar c ∧ idOkAux rest

/-- Acceptance by the id part `((?:[A-Za-z0-9-]+)|(?:_[^1]))+` of `_refid_re`. -/
def idOk (s : PStr) : Bool := s ≠ [] ∧ idOkAux s

/-- Acceptance by the prefix part `(?:\w|-)+` of `_refid_re`. -/
def prefixOk (s : PStr) : Bool := s ≠ [] ∧ s.all (fun c => wordChar c ∨ c = '-')

/-- Candidate prefix lengths for `_refid_re`, longest first (the optional
prefix group is greedy, so the Python engine tries longer prefixes first):
positions `i` such that `s[:i]` is an acceptable prefix and is followed by
the separator `_1`. -/
def refidSplits (s : PStr) : List Nat :=
  (List.range (s.length + 1)).reverse.filter
    (fun i => prefixOk (s.take i) ∧ (s.drop i).take 2 = ['_', '1'])

/-- Source `RefId.__new__` on a string: `_refid_re.fullmatch`, decomposing
`s` as `prefix ++ "_1" ++ id` with the longest prefix for which the rest
matches the id part, else (the optional group not participating) the whole
string as the id part; `none` models the `DoxyFormatError` branch. -/
def refidParse (s : PStr) : Option RefId :=
  match (refidSplits s).find? (fun i => idOk (s.drop (i + 2))) with
  | some i => some ⟨s.take i, s.drop (i + 2)⟩
  | none => if idOk s then some ⟨[], s⟩ else none

/-- Acceptance by the full grammar of `_refid_re` (existence of a
decomposition). -/
def RefIdAccepts (s : PStr) : Prop :=
  (∃ p h, prefixOk p ∧ idOk h ∧ s = p ++ ['_', '1'] ++ h) ∨ idOk s = true

/-- Source `Target`: tuple `(path, name)` uniquely identifying an entity.
`path` is `none` when the target string has no file-path part. -/
structure Target where
  path : Option PStr
  name : PStr
deriving DecidableEq, Repr

/-- Source `Target.__str__`: `"{}::{}".format(*self) if self.path else
self.name` (both `None` and the empty path are falsy). -/
def Target.str (t : Target) : PStr :=
  match t.path with
  | some p => if p ≠ [] then p ++ [':', ':'] ++ t.name else t.name
  | none => t.name

/-- Source `Target.name_components`: `self.name.split('::')`. -/
def Target.nameComponents (t : Target) : List PStr := splitOn2 ':' ':' t.name

/-- Acceptance by the name part `.+` of `_target_re` (`.` without `DOTALL`
matches every character except a newline). -/
def nameOk (s : PStr) : Bool := s ≠ [] ∧ s.all (fun c => c ≠ '\n')

/-- Acceptance by the final path component `[^/]+\.[^/:.]+` of `_target_re`:
a non-empty stem, a dot, and a non-empty extension free of `/`, `:` and `.`
(so the dot matched by the regex is the last dot of the component). -/
def lastCompOk (c : PStr) : Bool :=
  let parts := splitOn1 '.' c
  2 ≤ parts.length ∧ (List.intercalate ['.'] parts.dropLast) ≠ [] ∧
    parts.getLastD [] ≠ [] ∧ (parts.getLastD []).all (fun ch => ch ≠ ':')

/-- Acceptance by the path group `(?:[^/]+/)*[^/]+\.[^/:.]+` of `_target_re`. -/
def pathOk (s : PStr) : Bool :=
  let comps := splitOn1 '/' s
  comps.all (fun c => c ≠ []) ∧ lastCompOk (comps.getLastD [])

/-- Candidate path lengths for `_target_re`: positions `i` such that `s[:i]`
is an acceptable path followed by the separator `::`; longest first (the path
group is greedy). -/
def targetSplits (s : PStr) : List Nat :=
  (List.range (s.length + 1)).reverse.filter
    (fun i => pathOk (s.take i) ∧ (s.drop i).take 2 = [':', ':'])

/-- Source `Target.__new__` on a string: `_target_re.fullmatch`, decomposing
`s` as `path ++ "::" ++ name` when possible, else the whole string as the
name; `none` models the `ValueError("Malformed target string")` branch. -/
def targetParse (s : PStr) : Option Target :=
  match (targetSplits s).find? (fun i => nameOk (s.drop (i + 2))) with
  | some i => some ⟨some (s.take i), s.drop (i + 2)⟩
  | none => if nameOk s then some ⟨none, s⟩ else none

/-- Acceptance by the full grammar of `_target_re`. -/
def TargetAccepts (s : PStr) : Prop :=
  (∃ p n, pathOk p ∧ nameOk n ∧ s = p ++ [':', ':'] ++ n) ∨ nameOk s = true

/-- Embedded Python exceptions raised by `doxy.py` (message payloads elided;
the `AmbiguousTarget` candidate list is kept, matching the second constructor
argument in the source). -/
inductive PyErr where
  | refError
  | invalidTarget
  | ambiguousTarget (candidates : List RefId)
  | consistencyError
  | doxyFormatError
  | valueError
  | integrityError
  | keyError
  | typeError
deriving DecidableEq, Repr

/-- Membership in the `RefError` exception family (`RefError` and its
subclasses `InvalidTarget` and `AmbiguousTarget`). -/
def PyErr.isRefError : PyErr → Bool
  | .refError => true
  | .invalidTarget => true
  | .ambiguousTarget _ => true
  | _ => false

/-- Decidable equality of `Except` results, used to evaluate the model on
concrete inputs. -/
instance {e a : Type} [DecidableEq e] [DecidableEq a] : DecidableEq (Except e a)
  | .error x, .error y =>
    if h : x = y then .isTrue (by rw [h]) else .isFalse (fun hc => h (by injection hc))
  | .error _, .ok _ => .isFalse (fun hc => Except.noConfusion hc)
  | .ok _, .error _ => .isFalse (fun hc => Except.noConfusion hc)
  | .ok x, .ok y =>
    if h : x = y then .isTrue (by rw [h]) else .isFalse (fun hc => h (by injection hc))

/-- Row of the `elements` table: `(prefix, id, name, kind)` with
`PRIMARY KEY (prefix, id) ON CONFLICT IGNORE`. -/
structure Element where
  pfx : PStr
  id_ : PStr
  name : PStr
  kind : Kind
deriving DecidableEq, Repr

/-- Primary key of an `elements` row. -/
def Element.key (e : Element) : RefId := ⟨e.pfx, e.id_⟩

/-- Row of the `hierarchy` table: child `(pfx, id_)` and parent
`(pPfx, pId)`, with `UNIQUE (prefix, id, p_prefix, p_id) ON CONFLICT
REPLACE` and a foreign key from the child columns into `elements`. -/
structure Edge where
  pfx : PStr
  id_ : PStr
  pPfx : PStr
  pId : PStr
deriving DecidableEq, Repr

/-- Build the hierarchy row for child `c` and parent `p`. -/
def mkEdge (c p : RefId) : Edge := ⟨c.pfx, c.id_, p.pfx, p.id_⟩

/-- The in-memory SQLite database of `DoxyDB`: the `elements` and
`hierarchy` tables (as row lists in insertion order) plus the `_xml_dir`
attribute.  The fixed lookup tables `compound_kinds` and
`syn_compound_kinds` are always populated from `Kind.compounds` and
`Kind.synCompounds` and are represented by those constants. -/
structure Db where
  xmlDir : PStr
  elements : List Element
  hierarchy : List Edge
deriving DecidableEq, Repr

/-- Fresh store as produced by `_init_db` (empty base tables). -/
def Db.empty (dir : PStr) : Db := ⟨dir, [], []⟩

/-- Lookup of an `elements` row by primary key (first row in table order;
the primary key makes the row unique in any store built by the module). -/
def Db.getElem? (db : Db) (r : RefId) : Option Element :=
  db.elements.find? (fun e => e.pfx = r.pfx ∧ e.id_ = r.id_)

/-- Insert into `hierarchy`: the `UNIQUE ... ON CONFLICT REPLACE` constraint
deletes a conflicting row and inserts the new one, and the child foreign key
(enforced by `PRAGMA foreign_keys = 1`) makes the insert fail with
`sqlite3.IntegrityError` when the child is not in `elements`. -/
def Db.insertEdge (db : Db) (eg : Edge) : Except PyErr Db :=
  if db.elements.any (fun e => e.pfx = eg.pfx ∧ e.id_ = eg.id_) then
    .ok { db with hierarchy := db.hierarchy.filter (fun x => x ≠ eg) ++ [eg] }
  else .error .integrityError

/-- Source `DoxyDB._insert_element`: insert an `elements` row (a duplicate
primary key is silently ignored by `ON CONFLICT IGNORE`) and, when a parent
refid is given, a `hierarchy` row. -/
def Db.insertElement (db : Db) (refid : RefId) (name : PStr) (kind : Kind)
    (parentRefid : Option RefId) : Except PyErr Db :=
  let db1 :=
    if db.elements.any (fun e => e.pfx = refid.pfx ∧ e.id_ = refid.id_) then db
    else { db with elements := db.elements ++ [⟨refid.pfx, refid.id_, name, kind⟩] }
  match parentRefid with
  | none => .ok db1
  | some p => db1.insertEdge (mkEdge refid p)

/-- Source `SearchResult`: container for `find_children` / `find_parents`
results. -/
structure SearchResult where
  refid : RefId
  name : PStr
  kind : Kind
deriving DecidableEq, Repr

/-- Source `DoxyDB.get`: name and kind of an element, or the `RefError`
raised when the refid is absent. -/
def Db.get (db : Db) (refid : RefId) : Except PyErr (PStr × Kind) :=
  match db.getElem? refid with
  | some e => .ok (e.name, e.kind)
  | none => .error .refError

/-- Source `DoxyDB.find_parents`: the hierarchy parents of `refid` that are
rows of `elements` with a compound kind (`kind in compound_kinds`). -/
def Db.findParents (db : Db) (refid : RefId) : List SearchResult :=
  db.hierarchy.filterMap (fun h =>
    if h.pfx = refid.pfx ∧ h.id_ = refid.id_ then
      match db.getElem? ⟨h.pPfx, h.pId⟩ with
      | some e =>
        if e.kind ∈ Kind.compounds then some ⟨⟨h.pPfx, h.pId⟩, e.name, e.kind⟩
        else none
      | none => none
    else none)

/-- Source `DoxyDB.find_children`: direct descendants joined with
`elements`, partitioned into `(members, compounds)` by
`kind IN compound_kinds` (the `ORDER BY is_compound` / `groupby` pair of the
source realizes the same partition). -/
def Db.findChildren (db : Db) (refid : RefId) :
    List SearchResult × List SearchResult :=
  let rows := db.hierarchy.filterMap (fun h =>
    if h.pPfx = refid.pfx ∧ h.pId = refid.id_ then
      (db.getElem? ⟨h.pfx, h.id_⟩).map
        (fun e => (⟨⟨h.pfx, h.id_⟩, e.name, e.kind⟩ : SearchResult))
    else none)
  (rows.filter (fun s => s.kind ∉ Kind.compounds),
   rows.filter (fun s => s.kind ∈ Kind.compounds))

/-- Level-0 rows of the `follow` recursive CTE in `resolve_target`:
`SELECT 0, prefix, id FROM elements WHERE kind = ? AND match_path(name, ?)`
with `Kind.FILE` bound to the kind parameter. -/
def Db.followRoots (db : Db) (pathFilter : Option PStr) : List RefId :=
  db.elements.filterMap (fun e =>
    if e.kind = Kind.FILE ∧ matchPath e.name pathFilter then some e.key
    else none)

/-- Recursive step of the `follow` CTE: hierarchy children of `f` that are
`elements` rows whose `barename(name)` equals the current component. -/
def Db.followStep (db : Db) (f : RefId) (compo : PStr) : List RefId :=
  db.hierarchy.filterMap (fun h =>
    if h.pPfx = f.pfx ∧ h.pId = f.id_ then
      match db.getElem? ⟨h.pfx, h.id_⟩ with
      | some e => if barename e.name = compo then some ⟨h.pfx, h.id_⟩ else none
      | none => none
    else none)

/-- Rows of the `follow` CTE at a given level: level `i + 1` extends level
`i` through `followStep` with component `i` (the CTE joins `follow` with
`components` on `f.level = c.level`, so rows at level `ncompo` and beyond
are never extended). -/
def Db.followLevel (db : Db) (pathFilter : Option PStr) (compos : List PStr) :
    Nat → List RefId
  | 0 => db.followRoots pathFilter
  | i + 1 =>
    match compos[i]? with
    | some cp => (db.followLevel pathFilter compos i).flatMap
        (fun f => db.followStep f cp)
    | none => []

/-- Scope test of the outer `resolve_target` query:
`MAX(h.p_prefix = ? AND h.p_id = ?)` over the LEFT-JOINed hierarchy rows of
a candidate (`NULL`, produced when the candidate has no hierarchy row, is
falsy, like a `0` maximum). -/
def Db.inScope (db : Db) (cand : RefId) (sp : RefId) : Bool :=
  db.hierarchy.any (fun h =>
    h.pfx = cand.pfx ∧ h.id_ = cand.id_ ∧ h.pPfx = sp.pfx ∧ h.pId = sp.id_)

/-- Candidate set of `resolve_target`: the DISTINCT follow rows at the
accept level (`accept_level` is `0` exactly when the target refers to a file
via the sentinel name `*`, else the number of name components). -/
def Db.candList (db : Db) (target : Target) : List RefId :=
  let compos := target.nameComponents
  let acceptLevel := if compos.length = 1 ∧ target.name = ['*'] then 0
                     else compos.length
  (db.followLevel target.path compos acceptLevel).dedup

/-- Cursor rows handed by `resolve_target` to `_cur_to_refid`: the
candidates with their `in_scope` flag, ordered by `in_scope DESC` (scope
defaults to `("", "")` when absent, as in the source). -/
def Db.resolveRows (db : Db) (target : Target) (scope : Option RefId) :
    List (Bool × RefId) :=
  let sp := scope.getD ⟨[], []⟩
  let rows := (db.candList target).map (fun c => (db.inScope c sp, c))
  rows.filter (fun r => r.1) ++ rows.filter (fun r => ¬ r.1)

/-- Source `DoxyDB._cur_to_refid`: raise `InvalidTarget` on an empty cursor;
raise `AmbiguousTarget` (carrying every candidate) when there is more than
one row, unless scoped resolution finds the first row in scope and exactly
one scoped row; otherwise return the first row. -/
def curToRefid (rows : List (Bool × RefId)) (useScope : Bool) :
    Except PyErr RefId :=
  match rows with
  | [] => .error .invalidTarget
  | r0 :: rest =>
    if rest.length + 1 > 1 ∧
        (¬ useScope ∨ r0.1 = false ∨ ((r0 :: rest).filter (fun r => r.1)).length > 1)
    then .error (.ambiguousTarget ((r0 :: rest).map (fun r => r.2)))
    else .ok r0.2

/-- Source `DoxyDB.resolve_target`: convert a target into a refid, with
optional scope-based disambiguation. -/
def Db.resolveTarget (db : Db) (target : Target) (scope : Option RefId) :
    Except PyErr RefId :=
  curToRefid (db.resolveRows target scope) scope.isSome

/-- Source `DoxyDB._easy_kinds`: fixed kind-to-tag table of
`guess_desctype`. -/
def easyKinds : Kind → Option String
  | .ENUM => some "type"
  | .STRUCT => some "type"
  | .UNION => some "type"
  | .TYPEDEF => some "type"
  | .DEFINE => some "macro"
  | .FUNCTION => some "function"
  | _ => none

/-- Source `DoxyDB.guess_desctype`: classify an element into a C-domain
role.  `VARIABLE` maps to `"member"` when some direct compound parent is a
union or struct, else `"var"`; every unmapped kind raises
`ValueError("No c desctype for %s")`. -/
def Db.guessDesctype (db : Db) (refid : RefId) : Except PyErr String := do
  let (_, kind) ← db.get refid
  match easyKinds kind with
  | some tag => pure tag
  | none =>
    if kind = Kind.VARIABLE then
      pure (if (db.findParents refid).any
              (fun res => res.kind ∈ [Kind.UNION, Kind.STRUCT])
            then "member" else "var")
    else .error .valueError

/-- Parent step of the recursive `parent` CTE in `refid_to_target`: the
hierarchy parents of `x` that are `elements` rows whose kind is not in
`syn_compound_kinds`. -/
def Db.nonSynParents (db : Db) (x : RefId) : List RefId :=
  db.hierarchy.filterMap (fun h =>
    if h.pfx = x.pfx ∧ h.id_ = x.id_ then
      match db.getElem? ⟨h.pPfx, h.pId⟩ with
      | some e => if e.kind ∈ Kind.synCompounds then none else some ⟨h.pPfx, h.pId⟩
      | none => none
    else none)

/-- Append to `acc` the members of `l` that are in neither `seen` nor `acc`
(the `UNION` deduplication of the recursive CTE, applied to freshly derived
rows in order). -/
def addFresh (seen acc l : List (Nat × RefId)) : List (Nat × RefId) :=
  l.foldl (fun a x => if x ∈ seen ∨ x ∈ a then a else a ++ [x]) acc

/-- Row-at-a-time evaluation of the recursive `parent` CTE of
`refid_to_target`, as SQLite performs it: repeatedly dequeue a row, emit it,
and enqueue its not-yet-seen derived rows; `LIMIT 20` bounds the number of
emitted rows, modelled by the fuel argument. -/
def Db.ancBfs (db : Db) : Nat → List (Nat × RefId) → List (Nat × RefId) →
    List (Nat × RefId)
  | 0, _, _ => []
  | _ + 1, [], _ => []
  | fuel + 1, q :: qs, seen =>
    let derived := (db.nonSynParents q.2).map (fun p => (q.1 + 1, p))
    let fresh := addFresh seen [] derived
    q :: db.ancBfs fuel (qs ++ fresh) (seen ++ fresh)

/-- Rows of the `parent` CTE for `refid`: the anchor row is `(0, refid)`
when the refid is an `elements` row, and the recursion is capped at 20 rows
by `LIMIT 20`. -/
def Db.ancRows (db : Db) (refid : RefId) : List (Nat × RefId) :=
  let init : List (Nat × RefId) :=
    match db.getElem? refid with
    | some _ => [(0, refid)]
    | none => []
  db.ancBfs 20 init init

/-- Outer query of `refid_to_target`: join the CTE rows with `elements` and
keep one `(name, kind)` row per level, by ascending level (`GROUP BY level`;
the CTE emits levels in nondecreasing order, and the model takes the first
row of each level as the group representative — in the stores the module
builds each level of interest holds a single row, cf. `c2_roundtrip`). -/
def Db.ancNodes (db : Db) (refid : RefId) : List (PStr × Kind) :=
  let rows := db.ancRows refid
  (List.range 21).filterMap (fun l =>
    (rows.find? (fun p => p.1 = l)).bind (fun p =>
      (db.getElem? p.2).map (fun e => (e.name, e.kind))))

/-- Source `DoxyDB.refid_to_target`: generate a target tuple uniquely
identifying a refid by walking the hierarchy up to a file root.  A lone file
node checks whether its bare name is ambiguous among files and, if so,
widens the path to the relative-forced form `"./" ++ path`
(`".{}{}".format(os.path.sep, path)` under POSIX). -/
def Db.refidToTarget (db : Db) (refid : RefId) : Except PyErr Target :=
  let nodes := db.ancNodes refid
  match nodes with
  | [] => .error .invalidTarget
  | n0 :: rest =>
    if (nodes.getLastD n0).2 ≠ Kind.FILE then .error .consistencyError
    else if rest = [] then
      let path := n0.1
      let nMatching := (db.elements.filter (fun e =>
        e.kind = Kind.FILE ∧ matchPath e.name (some path))).length
      .ok ⟨some (if nMatching = 1 then path else ['.', '/'] ++ path), ['*']⟩
    else
      .ok ⟨some (nodes.getLastD n0).1,
           List.intercalate [':', ':'] ((nodes.dropLast.map Prod.fst).reverse)⟩

/-- Source `DoxyDB.__getstate__`: dump the database (the `_xml_dir`
attribute together with the SQL dump of the table contents, modelled by the
rows the dump script re-creates). -/
def Db.getstate (db : Db) : PStr × List Element × List Edge :=
  (db.xmlDir, db.elements, db.hierarchy)

/-- Source `DoxyDB.__setstate__`: recreate a connection and replay the
dumped script, reproducing the stored tables. -/
def Db.setstate (state : PStr × List Element × List Edge) : Db :=
  ⟨state.1, state.2.1, state.2.2⟩

/-- Manifest (`index.xml`) entry for a member nested under a compound, with
the refid, kind attribute and `<name>` child already extracted by the
streaming parse. -/
structure IndexMember where
  refid : RefId
  kind : Kind
  name : PStr
deriving DecidableEq, Repr

/-- Manifest entry for a top-level compound and its nested members. -/
structure IndexCompound where
  refid : RefId
  kind : Kind
  name : PStr
  members : List IndexMember
deriving DecidableEq, Repr

/-- Member handling of `_read_index`: members are inserted with the
enclosing compound as parent, EXCEPT members of kind `ENUMVALUE`, which
doxygen wrongly places as direct children of files; their parent is skipped
(`p_refid = None`) and set when reading the inner files. -/
def Db.readIndexMember (db : Db) (c : IndexCompound) (m : IndexMember) :
    Except PyErr Db :=
  let pRefid := if m.kind = Kind.ENUMVALUE then none else some c.refid
  db.insertElement m.refid m.name m.kind pRefid

/-- Compound handling of `_read_index`: the `end` events of the nested
members fire before the compound's own `end` event, so the members are
inserted first and the compound itself (with no parent) last. -/
def Db.readIndexCompound (db : Db) (c : IndexCompound) : Except PyErr Db := do
  let db1 ← c.members.foldlM (fun d m => d.readIndexMember c m) db
  db1.insertElement c.refid c.name c.kind none

/-- Source `DoxyDB._read_index`: parse `index.xml` and insert the elements
into the database (manifest build phase). -/
def Db.readIndex (db : Db) (idx : List IndexCompound) : Except PyErr Db :=
  idx.foldlM Db.readIndexCompound db

/-- XML element tree of a compound detail file: tag, attributes, children. -/
inductive Xml where
  | mk (tag : PStr) (attrs : List (PStr × PStr)) (children : List Xml)

mutual

/-- Decidable equality of XML elements. -/
def Xml.decEq : (a b : Xml) → Decidable (a = b)
  | .mk t1 a1 c1, .mk t2 a2 c2 =>
    if h1 : t1 = t2 then
      if h2 : a1 = a2 then
        match Xml.decEqList c1 c2 with
        | isTrue h3 => isTrue (by rw [h1, h2, h3])
        | isFalse h3 => isFalse (fun hc => h3 (by injection hc))
      else isFalse (fun hc => h2 (by injection hc))
    else isFalse (fun hc => h1 (by injection hc))

/-- Decidable equality of XML forests. -/
def Xml.decEqList : (a b : List Xml) → Decidable (a = b)
  | [], [] => isTrue rfl
  | [], _ :: _ => isFalse (fun hc => List.noConfusion hc)
  | _ :: _, [] => isFalse (fun hc => List.noConfusion hc)
  | x :: xs, y :: ys =>
    match Xml.decEq x y with
    | isTrue h1 =>
      match Xml.decEqList xs ys with
      | isTrue h2 => isTrue (by rw [h1, h2])
      | isFalse h2 => isFalse (fun hc => h2 (by injection hc))
    | isFalse h1 => isFalse (fun hc => h1 (by injection hc))

end

instance : DecidableEq Xml := Xml.decEq

/-- Tag of an XML element. -/
def Xml.tag : Xml → PStr
  | .mk t _ _ => t

/-- Attribute lookup (`elem.attrib[k]` yields `none` where Python raises
`KeyError`). -/
def Xml.attr? : Xml → PStr → Option PStr
  | .mk _ attrs _, k => (attrs.find? (fun p => p.1 = k)).map Prod.snd

mutual

/-- The `start`-event stream of `_ez_iterparse` over a subtree: each element
paired with its parent element (`elem.getparent()`; `none` for the root),
in document order. -/
def Xml.preorder (par : Option Xml) : Xml → List (Option Xml × Xml)
  | .mk t attrs cs =>
    (par, .mk t attrs cs) :: Xml.preorderList (some (.mk t attrs cs)) cs

/-- `Xml.preorder` mapped over a forest. -/
def Xml.preorderList (par : Option Xml) : List Xml → List (Option Xml × Xml)
  | [] => []
  | c :: cs => Xml.preorder par c ++ Xml.preorderList par cs

end

/-- Parse a refid string attribute (`RefId(s)` in the source raises
`DoxyFormatError` when the string does not match `_refid_re`). -/
def refidOf (s : PStr) : Except PyErr RefId :=
  match refidParse s with
  | some r => .ok r
  | none => .error .doxyFormatError

/-- Fetch and parse a refid-valued attribute. -/
def Xml.refidAttr (e : Xml) (k : PStr) : Except PyErr RefId :=
  match e.attr? k with
  | some s => refidOf s
  | none => .error .keyError

/-- Loop body of `_read_inner` for one `start` event, threading the current
`p_refid` (the id of the last `compounddef` seen; referencing it before any
`compounddef` is a Python name/type error, modelled by `typeError`):
* `doxygen` is skipped;
* `compounddef` updates `p_refid`;
* `enumvalue` requires a `memberdef` parent (else `ConsistencyError`) and
  records a hierarchy edge to that memberdef;
* a supported `inner<kind>` reference records an edge to `p_refid`;
* anything else is skipped. -/
def readInnerStep (st : Db × Option RefId) (pe : Option Xml × Xml) :
    Except PyErr (Db × Option RefId) :=
  let (db, pRef) := st
  let e := pe.2
  if e.tag = toL "doxygen" then .ok st
  else if e.tag = toL "compounddef" then do
    let r ← e.refidAttr (toL "id")
    .ok (db, some r)
  else if e.tag = toL "enumvalue" then
    match pe.1 with
    | none => .error .typeError
    | some par =>
      if par.tag ≠ toL "memberdef" then .error .consistencyError
      else do
        let thisParent ← par.refidAttr (toL "id")
        let thisRefid ← e.refidAttr (toL "id")
        let db1 ← db.insertEdge (mkEdge thisRefid thisParent)
        .ok (db1, pRef)
  else if (e.tag.take 5 = toL "inner") ∧ Kind.tagSupported (e.tag.drop 5) then do
    let thisRefid ← e.refidAttr (toL "refid")
    match pRef with
    | none => .error .typeError
    | some p => do
      let db1 ← db.insertEdge (mkEdge thisRefid p)
      .ok (db1, pRef)
  else .ok st

/-- Source `DoxyDB._read_inner`: gather the inner elements of the compounds
defined in one detail file (detail build phase for one document). -/
def Db.readInner (db : Db) (doc : Xml) : Except PyErr Db := do
  let st ← (Xml.preorder none doc).foldlM readInnerStep (db, none)
  .ok st.1

/-- Source `DoxyDB._load_all_inner`, with the filesystem access elided: fold
the detail phase over the parsed detail documents in iteration order. -/
def Db.loadAllInner (db : Db) (docs : List Xml) : Except PyErr Db :=
  docs.foldlM Db.readInner db

/-- Sample refid: the file `a.h`. -/
def fileA : RefId := ⟨[], toL "a_8h"⟩

/-- Sample refid: the struct `Foo` defined in `a.h`. -/
def structFoo : RefId := ⟨[], toL "structFoo"⟩

/-- Sample refid: the member `bar` of `Foo`. -/
def memBar : RefId := ⟨toL "structFoo", toL "b1"⟩

/-- Sample refid: a friend declaration (no desctype mapping). -/
def friendOp : RefId := ⟨[], toL "fr1"⟩

/-- Sample store: file `a.h` containing struct `Foo` containing variable
`bar`, plus an unclassifiable friend element. -/
def sampleDb : Db :=
  ⟨[],
   [⟨[], toL "a_8h", toL "a.h", .FILE⟩,
    ⟨[], toL "structFoo", toL "Foo", .STRUCT⟩,
    ⟨toL "structFoo", toL "b1", toL "bar", .VARIABLE⟩,
    ⟨[], toL "fr1", toL "op", .FRIEND⟩],
   [mkEdge structFoo fileA, mkEdge memBar structFoo]⟩

/-- Sample refid: the file `b.h`. -/
def fileB : RefId := ⟨[], toL "b_8h"⟩

/-- Sample refid: a second struct also named `Foo`, defined in `b.h`. -/
def structFoo2 : RefId := ⟨[], toL "structFoo2"⟩

/-- Sample store with an ambiguous name: two structs named `Foo`, one under
each of the files `a.h` and `b.h`. -/
def sampleDb2 : Db :=
  ⟨[],
   sampleDb.elements ++
    [⟨[], toL "b_8h", toL "b.h", .FILE⟩,
     ⟨[], toL "structFoo2", toL "Foo", .STRUCT⟩],
   sampleDb.hierarchy ++ [mkEdge structFoo2 fileB]⟩

/-- C6: restoring a store from its serialized dump (`__setstate__` after
`__getstate__`) yields a store that answers `get`, `find_children`,
`find_parents` and `resolve_target` identically to the original for every
refid and every target. -/
theorem c6_serialize_roundtrip :
    ∀ db : Db,
      Db.setstate (Db.getstate db) = db ∧
      (∀ r, (Db.setstate (Db.getstate db)).get r = db.get r) ∧
      (∀ r, (Db.setstate (Db.getstate db)).findChildren r = db.findChildren r) ∧
      (∀ r, (Db.setstate (Db.getstate db)).findParents r = db.findParents r) ∧
      (∀ t sc, (Db.setstate (Db.getstate db)).resolveTarget t sc =
        db.resolveTarget t sc) := by
  intro db
  exact ⟨rfl, fun _ => rfl, fun _ => rfl, fun _ => rfl, fun _ _ => rfl⟩

/-- C9: `get` returns the stored `(name, kind)` pair of an element that is
present, and fails with an error of the `RefError` family when the refid is
absent. -/
theorem c9_get :
    ∀ (db : Db) (r : RefId),
      ((∃ e ∈ db.elements, e.pfx = r.pfx ∧ e.id_ = r.id_) →
        ∃ e, e ∈ db.elements ∧ e.pfx = r.pfx ∧ e.id_ = r.id_ ∧
          db.get r = .ok (e.name, e.kind)) ∧
      ((∀ e ∈ db.elements, ¬(e.pfx = r.pfx ∧ e.id_ = r.id_)) →
        db.get r = .error .refError ∧ PyErr.isRefError .refError = true) := by
  intro db r
  constructor
  · intro h
    unfold Db.get Db.getElem?
    cases hf : db.elements.find? (fun e => e.pfx = r.pfx ∧ e.id_ = r.id_) with
    | none =>
      rw [List.find?_eq_none] at hf
      obtain ⟨e, he, h1, h2⟩ := h
      have hc := hf e he
      simp [h1, h2] at hc
    | some e =>
      have hp := List.find?_some hf
      have hm := List.mem_of_find?_eq_some hf
      simp only [decide_eq_true_eq, Bool.and_eq_true] at hp
      exact ⟨e, hm, hp.1, hp.2, rfl⟩
  · intro h
    unfold Db.get Db.getElem?
    have hf : db.elements.find? (fun e => e.pfx = r.pfx ∧ e.id_ = r.id_) = none :=
      List.find?_eq_none.mpr (fun x hx => by simpa using h x hx)
    rw [hf]
    exact ⟨rfl, rfl⟩

/-- C9 witness: evaluation of `c9_get` on the sample store, for a present
and for an absent refid. -/
theorem c9_get_witness :
    (∃ e, e ∈ sampleDb.elements ∧ e.pfx = memBar.pfx ∧ e.id_ = memBar.id_ ∧
        sampleDb.get memBar = .ok (e.name, e.kind)) ∧
    sampleDb.get ⟨[], toL "nope"⟩ = .error .refError :=
  ⟨(c9_get sampleDb memBar).1 (by decide),
   ((c9_get sampleDb ⟨[], toL "nope"⟩).2 (by decide)).1⟩

/-- C10: once a refid is present, a later `_insert_element` with the same
refid but arbitrary (possibly different) name and kind neither raises nor
modifies the store — `ON CONFLICT IGNORE` drops the row — so `get` keeps
answering with the `(name, kind)` of the first insertion. -/
theorem c10_conflict_ignore :
    ∀ (db0 db1 : Db) (r : RefId) (n : PStr) (k : Kind) (n2 : PStr) (k2 : Kind),
      (∀ e ∈ db0.elements, ¬(e.pfx = r.pfx ∧ e.id_ = r.id_)) →
      db0.insertElement r n k none = .ok db1 →
      db1.insertElement r n2 k2 none = .ok db1 ∧ db1.get r = .ok (n, k) := by
  intro db0 db1 r n k n2 k2 hfresh h1
  have hany : db0.elements.any (fun e => e.pfx = r.pfx ∧ e.id_ = r.id_) = false :=
    List.any_eq_false.mpr (fun x hx => by simpa using hfresh x hx)
  unfold Db.insertElement at h1
  rw [hany] at h1
  simp only [Bool.false_eq_true, if_false] at h1
  have hdb1 : db1 = { db0 with
      elements := db0.elements ++ [⟨r.pfx, r.id_, n, k⟩] } := by
    cases h1
    rfl
  subst hdb1
  constructor
  · unfold Db.insertElement
    have : (db0.elements ++ [(⟨r.pfx, r.id_, n, k⟩ : Element)]).any
        (fun e => e.pfx = r.pfx ∧ e.id_ = r.id_) = true := by
      simp
    rw [this]
    simp
  · unfold Db.get Db.getElem?
    rw [List.find?_append]
    have hnone : db0.elements.find? (fun e => e.pfx = r.pfx ∧ e.id_ = r.id_) = none :=
      List.find?_eq_none.mpr (fun x hx => by simpa using hfresh x hx)
    rw [hnone]
    simp [List.find?]

/-- C10 witness: evaluation of `c10_conflict_ignore` on a concrete store —
re-inserting `Foo`'s refid with a different name and kind is ignored. -/
theorem c10_conflict_ignore_witness :
    (Db.empty []).insertElement structFoo (toL "Foo") Kind.STRUCT none =
      .ok ⟨[], [⟨[], toL "structFoo", toL "Foo", Kind.STRUCT⟩], []⟩ ∧
    (⟨[], [⟨[], toL "structFoo", toL "Foo", Kind.STRUCT⟩], []⟩ : Db).insertElement
        structFoo (toL "Other") Kind.UNION none =
      .ok ⟨[], [⟨[], toL "structFoo", toL "Foo", Kind.STRUCT⟩], []⟩ ∧
    (⟨[], [⟨[], toL "structFoo", toL "Foo", Kind.STRUCT⟩], []⟩ : Db).get structFoo =
      .ok (toL "Foo", Kind.STRUCT) := by
  refine ⟨by decide, ?_⟩
  exact c10_conflict_ignore (Db.empty [])
    ⟨[], [⟨[], toL "structFoo", toL "Foo", Kind.STRUCT⟩], []⟩
    structFoo (toL "Foo") Kind.STRUCT (toL "Other") Kind.UNION
    (by decide) (by decide)

/-- C7: duplicate insertion is harmless.  Inserting the same
`(refid, name, kind)` row twice does not raise and leaves exactly one
`elements` row for that refid, with the rest of the store unchanged;
re-inserting an identical hierarchy edge does not raise, replaces the edge
(leaving exactly one copy) and preserves every other row. -/
theorem c7_duplicate_insert :
    ∀ (db db1 db2 : Db) (r : RefId) (n : PStr) (k : Kind) (eg : Edge),
      ((∀ e ∈ db.elements, ¬(e.pfx = r.pfx ∧ e.id_ = r.id_)) →
        db.insertElement r n k none = .ok db1 →
        db1.insertElement r n k none = .ok db1 ∧
        (db1.elements.filter (fun e => e.pfx = r.pfx ∧ e.id_ = r.id_)).length = 1 ∧
        db1.elements = db.elements ++ [⟨r.pfx, r.id_, n, k⟩] ∧
        db1.hierarchy = db.hierarchy) ∧
      ((∃ e ∈ db.elements, e.pfx = eg.pfx ∧ e.id_ = eg.id_) →
        db.insertEdge eg = .ok db2 →
        db2.insertEdge eg = .ok db2 ∧
        db2.hierarchy.count eg = 1 ∧
        (∀ eg2, eg2 ≠ eg → db2.hierarchy.count eg2 = db.hierarchy.count eg2) ∧
        db2.elements = db.elements) := by
  intro db db1 db2 r n k eg
  constructor
  · intro hfresh h1
    have hany : db.elements.any (fun e => e.pfx = r.pfx ∧ e.id_ = r.id_) = false :=
      List.any_eq_false.mpr (fun x hx => by simpa using hfresh x hx)
    unfold Db.insertElement at h1
    rw [hany] at h1
    simp only [Bool.false_eq_true, if_false] at h1
    have hdb1 : db1 = { db with
        elements := db.elements ++ [⟨r.pfx, r.id_, n, k⟩] } := by
      cases h1
      rfl
    subst hdb1
    refine ⟨?_, ?_, rfl, rfl⟩
    · unfold Db.insertElement
      have : (db.elements ++ [(⟨r.pfx, r.id_, n, k⟩ : Element)]).any
          (fun e => e.pfx = r.pfx ∧ e.id_ = r.id_) = true := by simp
      rw [this]
      simp
    · rw [List.filter_append]
      have h0 : db.elements.filter (fun e => e.pfx = r.pfx ∧ e.id_ = r.id_) = [] :=
        List.filter_eq_nil_iff.mpr (fun x hx => by simpa using hfresh x hx)
      rw [h0]
      simp
  · intro hmem h2
    have hany : db.elements.any (fun e => e.pfx = eg.pfx ∧ e.id_ = eg.id_) = true := by
      obtain ⟨e, he, h1, h2'⟩ := hmem
      exact List.any_eq_true.mpr ⟨e, he, by simp [h1, h2']⟩
    unfold Db.insertEdge at h2
    rw [hany] at h2
    simp only [if_true] at h2
    have hdb2 : db2 = { db with
        hierarchy := db.hierarchy.filter (fun x => x ≠ eg) ++ [eg] } := by
      cases h2
      rfl
    subst hdb2
    refine ⟨?_, ?_, ?_, rfl⟩
    · unfold Db.insertEdge
      rw [hany]
      simp only [if_true]
      have : (db.hierarchy.filter (fun x => x ≠ eg) ++ [eg]).filter (fun x => x ≠ eg) =
          db.hierarchy.filter (fun x => x ≠ eg) := by
        rw [List.filter_append, List.filter_filter]
        simp
      rw [this]
    · rw [List.count_append]
      have hz : (db.hierarchy.filter (fun x => x ≠ eg)).count eg = 0 := by
        rw [List.count_eq_zero]
        intro hmem2
        have := List.of_mem_filter hmem2
        simp at this
      rw [hz]
      simp
    · intro eg2 hne
      rw [List.count_append]
      have hc : (db.hierarchy.filter (fun x => x ≠ eg)).count eg2 =
          db.hierarchy.count eg2 :=
        List.count_filter (by simpa using hne)
      rw [hc]
      simp [hne]

/-- C7 witness: evaluation of `c7_duplicate_insert` on a concrete store:
the duplicate element row is ignored and the duplicate edge replaced. -/
theorem c7_duplicate_insert_witness :
    (⟨[], [⟨[], toL "structFoo", toL "Foo", Kind.STRUCT⟩], []⟩ : Db).insertElement
        structFoo (toL "Foo") Kind.STRUCT none =
      .ok ⟨[], [⟨[], toL "structFoo", toL "Foo", Kind.STRUCT⟩], []⟩ ∧
    (⟨[], [⟨[], toL "structFoo", toL "Foo", Kind.STRUCT⟩],
        [mkEdge structFoo fileA]⟩ : Db).insertEdge (mkEdge structFoo fileA) =
      .ok ⟨[], [⟨[], toL "structFoo", toL "Foo", Kind.STRUCT⟩],
        [mkEdge structFoo fileA]⟩ := by
  constructor
  · exact ((c7_duplicate_insert (Db.empty [])
      ⟨[], [⟨[], toL "structFoo", toL "Foo", Kind.STRUCT⟩], []⟩
      (Db.empty []) structFoo (toL "Foo")
      Kind.STRUCT (mkEdge structFoo fileA)).1 (by decide) (by decide)).1
  · exact ((c7_duplicate_insert
      ⟨[], [⟨[], toL "structFoo", toL "Foo", Kind.STRUCT⟩], []⟩
      (Db.empty [])
      ⟨[], [⟨[], toL "structFoo", toL "Foo", Kind.STRUCT⟩],
        [mkEdge structFoo fileA]⟩
      structFoo (toL "Foo") Kind.STRUCT
      (mkEdge structFoo fileA)).2 (by decide) (by decide)).1

/-- C8 counterexample: the claim says an element of unmapped kind (here a
friend declaration) makes `guess_desctype` fail with `UnclassifiableKind`, a
member of the `RefError` family.  On the code the failure is a `ValueError`
(`"No c desctype for %s"`), which is not a `RefError`; callers even catch it
separately from `RefError` (`directives.py`). -/
theorem c8_counterexample :
    sampleDb.guessDesctype friendOp = .error .valueError ∧
    PyErr.isRefError .valueError = false ∧
    sampleDb.get friendOp = .ok (toL "op", Kind.FRIEND) := by
  decide

/-- C8 (amended): `guess_desctype` maps enum/struct/union/typedef to
`"type"`, define to `"macro"`, function to `"function"`; for a variable it
returns `"member"` when at least one direct compound parent is a union or a
struct and `"var"` otherwise; for every other kind it fails with
`ValueError`, which is not in the `RefError` family. -/
theorem c8_guess_desctype :
    ∀ (db : Db) (r : RefId) (nm : PStr) (k : Kind),
      db.get r = .ok (nm, k) →
      (k ∈ [Kind.ENUM, Kind.STRUCT, Kind.UNION, Kind.TYPEDEF] →
        db.guessDesctype r = .ok "type") ∧
      (k = Kind.DEFINE → db.guessDesctype r = .ok "macro") ∧
      (k = Kind.FUNCTION → db.guessDesctype r = .ok "function") ∧
      (k = Kind.VARIABLE →
        ((∃ res ∈ db.findParents r, res.kind = Kind.UNION ∨ res.kind = Kind.STRUCT) →
          db.guessDesctype r = .ok "member") ∧
        ((∀ res ∈ db.findParents r, res.kind ≠ Kind.UNION ∧ res.kind ≠ Kind.STRUCT) →
          db.guessDesctype r = .ok "var")) ∧
      (k ∉ [Kind.ENUM, Kind.STRUCT, Kind.UNION, Kind.TYPEDEF, Kind.DEFINE,
            Kind.FUNCTION, Kind.VARIABLE] →
        db.guessDesctype r = .error .valueError ∧
        PyErr.isRefError .valueError = false) := by
  intro db r nm k hget
  have hrun : db.guessDesctype r =
      (match easyKinds k with
       | some tag => pure tag
       | none =>
         if k = Kind.VARIABLE then
           pure (if (db.findParents r).any
                   (fun res => res.kind ∈ [Kind.UNION, Kind.STRUCT])
                 then "member" else "var")
         else .error .valueError) := by
    unfold Db.guessDesctype
    rw [hget]
    rfl
  refine ⟨?_, ?_, ?_, ?_, ?_⟩
  · intro hk
    rw [hrun]
    fin_cases hk <;> rfl
  · intro hk
    rw [hrun, hk]
    rfl
  · intro hk
    rw [hrun, hk]
    rfl
  · intro hk
    subst hk
    constructor
    · intro hex
      rw [hrun]
      have hany : (db.findParents r).any
          (fun res => res.kind ∈ [Kind.UNION, Kind.STRUCT]) = true := by
        obtain ⟨res, hmem, hk2⟩ := hex
        refine List.any_eq_true.mpr ⟨res, hmem, ?_⟩
        rcases hk2 with h | h <;> simp [h]
      simp only [easyKinds, hany, if_true]
      rfl
    · intro hall
      rw [hrun]
      have hany : (db.findParents r).any
          (fun res => res.kind ∈ [Kind.UNION, Kind.STRUCT]) = false := by
        refine List.any_eq_false.mpr (fun res hmem => ?_)
        have := hall res hmem
        simp only [List.mem_cons, List.mem_singleton, List.not_mem_nil]
        simp [this.1, this.2]
      simp only [easyKinds, hany]
      rfl
  · intro hk
    rw [hrun]
    cases k <;> simp at hk <;> exact ⟨rfl, rfl⟩

/-- C8 witness: evaluation of `c8_guess_desctype` on the sample store — the
struct member `bar` classifies as `"member"` and the file `a.h` has no
mapping, failing with `ValueError`. -/
theorem c8_guess_desctype_witness :
    sampleDb.guessDesctype memBar = .ok "member" ∧
    sampleDb.guessDesctype fileA = .error .valueError :=
  ⟨((c8_guess_desctype sampleDb memBar (toL "bar") Kind.VARIABLE
      (by decide)).2.2.2.1 rfl).1 (by decide),
   ((c8_guess_desctype sampleDb fileA (toL "a.h") Kind.FILE
      (by decide)).2.2.2.2 (by decide)).1⟩

/-- Root set as described by claim C4, following the spec's words ("all
compound-kind entities whose name matches `target.path`"); to be compared
with `Db.followRoots`, which the source restricts to FILE-kind entities. -/
def claimCompoundRoots (db : Db) (pathFilter : Option PStr) : List RefId :=
  db.elements.filterMap (fun e =>
    if e.kind ∈ Kind.compounds ∧ matchPath e.name pathFilter then some e.key
    else none)

/-- Store holding a single struct and no file, distinguishing file-kind
roots from compound-kind roots. -/
def structOnlyDb : Db := ⟨[], [⟨[], toL "structFoo", toL "Foo", Kind.STRUCT⟩], []⟩

/-- C4 counterexample: (i) the level-0 root set of `resolve_target` is NOT
the compound-kind entities matching the path — a struct is compound-kind
but never a root (the source query requires `kind = Kind.FILE`), so with
only a struct present resolution fails with `InvalidTarget`; (ii) a path
filter starting with `"./"` does NOT always force full component equality:
when its first surviving component itself starts with a dot, the source
falls back to suffix matching. -/
theorem c4_counterexample :
    claimCompoundRoots structOnlyDb none = [structFoo] ∧
    structOnlyDb.followRoots none = [] ∧
    structOnlyDb.resolveTarget ⟨none, toL "Foo"⟩ none = .error .invalidTarget ∧
    matchPath (toL "x/.h/a.h") (some (toL "./.h/a.h")) = true ∧
    pathParts (toL "x/.h/a.h") ≠ pathParts (toL "./.h/a.h") := by
  decide

/-- C4 (amended): the level-0 roots of `resolve_target` are exactly the
FILE-kind entities whose name matches `target.path`, where the
path-comparison predicate (`_match_path`) accepts every stored name when
the filter is absent or empty; a filter starting with `"./"` whose first
surviving component does not itself start with `"."` forces full equality
of the component sequences; and a filter not starting with `"."` (both
sides having components) compares trailing components — it matches exactly
when the shorter component sequence is a suffix of the longer. -/
theorem c4_roots_and_matching :
    (∀ (db : Db) (t : Target) (r : RefId),
      r ∈ db.followRoots t.path ↔
        ∃ e ∈ db.elements, e.key = r ∧ e.kind = Kind.FILE ∧
          matchPath e.name t.path = true) ∧
    (∀ p1, matchPath p1 none = true ∧ matchPath p1 (some []) = true) ∧
    (∀ p1 p2, p2.take 2 = ['.', '/'] →
      (pathParts p2).headI.headI ≠ '.' →
      (matchPath p1 (some p2) = true ↔ pathParts p1 = pathParts p2)) ∧
    (∀ p1 p2, p2 ≠ [] → p2.headI ≠ '.' →
      pathParts p1 ≠ [] → pathParts p2 ≠ [] →
      (matchPath p1 (some p2) = true ↔
        (pathParts p2 <:+ pathParts p1 ∨ pathParts p1 <:+ pathParts p2))) := by
  refine ⟨?_, ?_, ?_, ?_⟩
  · intro db t r
    unfold Db.followRoots
    rw [List.mem_filterMap]
    constructor
    · rintro ⟨e, he, hf⟩
      by_cases h : e.kind = Kind.FILE ∧ matchPath e.name t.path = true
      · rw [if_pos h] at hf
        exact ⟨e, he, Option.some.inj hf, h.1, h.2⟩
      · rw [if_neg h] at hf
        exact absurd hf (Option.noConfusion)
    · rintro ⟨e, he, hkey, hkind, hmatch⟩
      exact ⟨e, he, by rw [if_pos ⟨hkind, hmatch⟩, hkey]⟩
  · intro p1
    exact ⟨rfl, rfl⟩
  · intro p1 p2 htake hhead
    obtain ⟨rest, hp2⟩ : ∃ rest, p2 = '.' :: '/' :: rest := by
      cases p2 with
      | nil => simp at htake
      | cons a t =>
        cases t with
        | nil => simp at htake
        | cons b t2 =>
          simp only [List.take, List.cons.injEq] at htake
          exact ⟨t2, by rw [htake.1, htake.2.1]⟩
    subst hp2
    unfold matchPath
    dsimp only
    have hne : ('.' :: '/' :: rest) ≠ ([] : PStr) := by simp
    rw [if_neg hne]
    by_cases hparts : pathParts ('.' :: '/' :: rest) = []
    · have hcond : ¬(List.headI ('.' :: '/' :: rest) = '.' ∧
          pathParts ('.' :: '/' :: rest) ≠ [] ∧
          (pathParts ('.' :: '/' :: rest)).headI.headI ≠ '.') :=
        fun hc => hc.2.1 hparts
      rw [if_neg hcond, hparts]
      simp
    · have hcond : List.headI ('.' :: '/' :: rest) = '.' ∧
          pathParts ('.' :: '/' :: rest) ≠ [] ∧
          (pathParts ('.' :: '/' :: rest)).headI.headI ≠ '.' :=
        ⟨rfl, hparts, hhead⟩
      rw [if_pos hcond, if_pos rfl]
      simp
  · intro p1 p2 hne hhead h1ne h2ne
    unfold matchPath
    dsimp only
    rw [if_neg hne]
    have hcond : ¬(p2.headI = '.' ∧ pathParts p2 ≠ [] ∧
        (pathParts p2).headI.headI ≠ '.') := by
      intro hc
      exact hhead hc.1
    rw [if_neg hcond]
    have hl1 : 0 < (pathParts p1).length := List.length_pos.mpr h1ne
    have hl2 : 0 < (pathParts p2).length := List.length_pos.mpr h2ne
    have hmin : ¬(min (pathParts p1).length (pathParts p2).length = 0) := by
      omega
    rw [if_neg hmin]
    rcases Nat.le_total (pathParts p2).length (pathParts p1).length with hle | hle
    · rw [Nat.min_eq_right hle, Nat.sub_self, List.drop_zero]
      simp only [decide_eq_true_eq]
      constructor
      · intro h
        exact Or.inl (List.suffix_iff_eq_drop.mpr h.symm)
      · rintro (h | h)
        · exact (List.suffix_iff_eq_drop.mp h).symm
        · have hlen : (pathParts p1).length ≤ (pathParts p2).length :=
            h.sublist.length_le
          have heq : pathParts p1 = pathParts p2 :=
            h.sublist.eq_of_length (Nat.le_antisymm hlen hle)
          rw [heq, Nat.sub_self, List.drop_zero]
    · rw [Nat.min_eq_left hle, Nat.sub_self, List.drop_zero]
      simp only [decide_eq_true_eq]
      constructor
      · intro h
        exact Or.inr (List.suffix_iff_eq_drop.mpr h)
      · rintro (h | h)
        · have hlen : (pathParts p2).length ≤ (pathParts p1).length :=
            h.sublist.length_le
          have heq : pathParts p2 = pathParts p1 :=
            h.sublist.eq_of_length (Nat.le_antisymm hlen hle)
          rw [heq, Nat.sub_self, List.drop_zero]
        · exact List.suffix_iff_eq_drop.mp h

/-- C4 witness: evaluation of `c4_roots_and_matching` on concrete inputs —
a relative-forced filter matching fully, and the file `a.h` being a root. -/
theorem c4_roots_and_matching_witness :
    matchPath (toL "a/b.h") (some (toL "./a/b.h")) = true ∧
    fileA ∈ sampleDb.followRoots none :=
  ⟨(c4_roots_and_matching.2.2.1 (toL "a/b.h") (toL "./a/b.h")
      (by decide) (by decide)).mpr (by decide),
   (c4_roots_and_matching.1 sampleDb ⟨none, toL "x"⟩ fileA).mpr (by decide)⟩

/-- Rows of `resolve_target` in explicit form: the in-scope candidates
(flagged `true`) followed by the out-of-scope candidates (flagged `false`). -/
theorem resolveRows_spec (db : Db) (t : Target) (sc : Option RefId) :
    db.resolveRows t sc =
      ((db.candList t).filter
        (fun c => db.inScope c (sc.getD ⟨[], []⟩))).map (fun c => (true, c)) ++
      ((db.candList t).filter
        (fun c => ¬ db.inScope c (sc.getD ⟨[], []⟩))).map (fun c => (false, c)) := by
  unfold Db.resolveRows
  dsimp only
  generalize db.candList t = l
  generalize sc.getD ⟨[], []⟩ = sp
  have h1 : ∀ l : List RefId,
      ((l.map (fun c => (db.inScope c sp, c))).filter (fun r => r.1)) =
        (l.filter (fun c => db.inScope c sp)).map (fun c => (true, c)) := by
    intro l
    induction l with
    | nil => rfl
    | cons a l ih =>
      by_cases h : db.inScope a sp = true
      · simp [List.filter_cons, h, ih]
      · rw [Bool.not_eq_true] at h
        simp [List.filter_cons, h, ih]
  have h2 : ∀ l : List RefId,
      ((l.map (fun c => (db.inScope c sp, c))).filter (fun r => ¬ r.1)) =
        (l.filter (fun c => ¬ db.inScope c sp)).map (fun c => (false, c)) := by
    intro l
    induction l with
    | nil => rfl
    | cons a l ih =>
      by_cases h : db.inScope a sp = true
      · simp only [decide_not, Bool.decide_coe] at ih
        simp [List.filter_cons, h, ih]
      · rw [Bool.not_eq_true] at h
        simp only [decide_not, Bool.decide_coe] at ih
        simp [List.filter_cons, h, ih]
  rw [h1, h2]

/-- Unfolding of `_cur_to_refid` on an empty cursor. -/
theorem curToRefid_nil (us : Bool) : curToRefid [] us = .error .invalidTarget := rfl

/-- Unfolding of `_cur_to_refid` on a non-empty cursor. -/
theorem curToRefid_cons (r0 : Bool × RefId) (rest : List (Bool × RefId)) (us : Bool) :
    curToRefid (r0 :: rest) us =
      if rest.length + 1 > 1 ∧
          (¬ us ∨ r0.1 = false ∨
            ((r0 :: rest).filter (fun r => r.1)).length > 1)
      then .error (.ambiguousTarget ((r0 :: rest).map (fun r => r.2)))
      else .ok r0.2 := rfl

/-- The in-scope rows of the resolve cursor are exactly its first block. -/
theorem rows_filter_fst (db : Db) (sp : RefId) (l : List RefId) :
    ((l.filter (fun c => db.inScope c sp)).map (fun c => (true, c)) ++
     (l.filter (fun c => ¬ db.inScope c sp)).map (fun c => (false, c))).filter
       (fun r : Bool × RefId => r.1) =
    (l.filter (fun c => db.inScope c sp)).map (fun c => (true, c)) := by
  rw [List.filter_append]
  have h1 : ((l.filter (fun c => db.inScope c sp)).map
      (fun c => (true, c))).filter (fun r : Bool × RefId => r.1) =
      (l.filter (fun c => db.inScope c sp)).map (fun c => (true, c)) :=
    List.filter_eq_self.mpr (by
      intro r hr
      obtain ⟨c2, _, rfl⟩ := List.mem_map.mp hr
      rfl)
  have h2 : ((l.filter (fun c => ¬ db.inScope c sp)).map
      (fun c => (false, c))).filter (fun r : Bool × RefId => r.1) = [] :=
    List.filter_eq_nil_iff.mpr (by
      intro r hr
      obtain ⟨c2, _, rfl⟩ := List.mem_map.mp hr
      simp)
  rw [h1, h2, List.append_nil]

/-- The refids carried by the resolve cursor are a permutation of the
candidate list. -/
theorem rows_map_perm (db : Db) (sp : RefId) (l : List RefId) :
    (((l.filter (fun c => db.inScope c sp)).map (fun c => (true, c)) ++
      (l.filter (fun c => ¬ db.inScope c sp)).map (fun c => (false, c))).map
        (fun r : Bool × RefId => r.2)).Perm l := by
  have hmap : ((l.filter (fun c => db.inScope c sp)).map (fun c => (true, c)) ++
      (l.filter (fun c => ¬ db.inScope c sp)).map (fun c => (false, c))).map
        (fun r : Bool × RefId => r.2) =
      l.filter (fun c => db.inScope c sp) ++
        l.filter (fun c => ¬ db.inScope c sp) := by
    simp [List.map_append, List.map_map, Function.comp]
  rw [hmap]
  simpa [decide_not, Bool.decide_coe] using
    List.filter_append_perm (fun c => db.inScope c sp) l

/-- C1: contract of `resolve_target` / `_cur_to_refid`.  An empty candidate
set raises `InvalidTarget`; more than one candidate with no scope, an empty
scoped subset, or a scoped subset of more than one element raises
`AmbiguousTarget` carrying all candidates; a scope with exactly one direct
child among the candidates resolves to that child even when other
candidates exist. -/
theorem c1_resolve_target :
    ∀ (db : Db) (t : Target) (sc : Option RefId),
      (db.candList t = [] → db.resolveTarget t sc = .error .invalidTarget) ∧
      (1 < (db.candList t).length →
        (sc = none ∨ ∃ s0, sc = some s0 ∧
          (((db.candList t).filter (fun c => db.inScope c s0)).length = 0 ∨
           1 < ((db.candList t).filter (fun c => db.inScope c s0)).length)) →
        ∃ cs, db.resolveTarget t sc = .error (.ambiguousTarget cs) ∧
          cs.Perm (db.candList t)) ∧
      (∀ s0 c, sc = some s0 →
        (db.candList t).filter (fun c2 => db.inScope c2 s0) = [c] →
        db.resolveTarget t sc = .ok c) := by
  intro db t sc
  refine ⟨?_, ?_, ?_⟩
  · intro hnil
    unfold Db.resolveTarget
    rw [resolveRows_spec, hnil]
    rfl
  · intro hlen hcond
    unfold Db.resolveTarget
    rw [resolveRows_spec]
    have hperm := rows_map_perm db (sc.getD ⟨[], []⟩) (db.candList t)
    have hlenrows :
        (((db.candList t).filter
            (fun c => db.inScope c (sc.getD ⟨[], []⟩))).map (fun c => (true, c)) ++
         ((db.candList t).filter
            (fun c => ¬ db.inScope c (sc.getD ⟨[], []⟩))).map
              (fun c => (false, c))).length = (db.candList t).length := by
      have := hperm.length_eq
      simpa using this
    rcases hcond with hnone | ⟨s0, hs0, hzero | hmore⟩
    · subst hnone
      cases hr : ((db.candList t).filter
          (fun c => db.inScope c ((none : Option RefId).getD ⟨[], []⟩))).map
            (fun c => (true, c)) ++
          ((db.candList t).filter
            (fun c => ¬ db.inScope c ((none : Option RefId).getD ⟨[], []⟩))).map
              (fun c => (false, c)) with
      | nil =>
        rw [hr] at hlenrows
        simp at hlenrows
        omega
      | cons r0 rest =>
        rw [hr] at hlenrows hperm
        have hgt : rest.length + 1 > 1 := by
          simp at hlenrows
          omega
        rw [curToRefid_cons, if_pos ⟨hgt, Or.inl (by simp)⟩]
        exact ⟨(r0 :: rest).map (fun r => r.2), rfl, hperm⟩
    · subst hs0
      have hfnil : (db.candList t).filter
          (fun c => db.inScope c ((some s0).getD ⟨[], []⟩)) = [] := by
        rw [List.length_eq_zero] at hzero
        simpa using hzero
      rw [hfnil]
      simp only [List.map_nil, List.nil_append]
      rw [hfnil] at hlenrows hperm
      simp only [List.map_nil, List.nil_append] at hlenrows hperm
      cases hr : ((db.candList t).filter
          (fun c => ¬ db.inScope c ((some s0).getD ⟨[], []⟩))).map
            (fun c => (false, c)) with
      | nil =>
        rw [hr] at hlenrows
        simp at hlenrows
        omega
      | cons r0 rest =>
        rw [hr] at hlenrows hperm
        have hr0 : r0.1 = false := by
          have hmem : r0 ∈ ((db.candList t).filter
              (fun c => ¬ db.inScope c ((some s0).getD ⟨[], []⟩))).map
                (fun c => (false, c)) := by
            rw [hr]
            exact List.mem_cons_self r0 rest
          obtain ⟨c2, _, rfl⟩ := List.mem_map.mp hmem
          rfl
        have hgt : rest.length + 1 > 1 := by
          simp at hlenrows
          omega
        rw [curToRefid_cons, if_pos ⟨hgt, Or.inr (Or.inl hr0)⟩]
        exact ⟨(r0 :: rest).map (fun r => r.2), rfl, hperm⟩
    · subst hs0
      have hlenA : 1 < (((db.candList t).filter
          (fun c => db.inScope c ((some s0).getD ⟨[], []⟩))).map
            (fun c => (true, c))).length := by
        simpa using hmore
      have hfst := rows_filter_fst db ((some s0).getD ⟨[], []⟩) (db.candList t)
      cases hr : ((db.candList t).filter
          (fun c => db.inScope c ((some s0).getD ⟨[], []⟩))).map
            (fun c => (true, c)) ++
          ((db.candList t).filter
            (fun c => ¬ db.inScope c ((some s0).getD ⟨[], []⟩))).map
              (fun c => (false, c)) with
      | nil =>
        rw [hr] at hlenrows
        simp at hlenrows
        omega
      | cons r0 rest =>
        rw [hr] at hlenrows hperm hfst
        have hgt : rest.length + 1 > 1 := by
          simp at hlenrows
          omega
        have hflen : ((r0 :: rest).filter (fun r : Bool × RefId => r.1)).length > 1 := by
          rw [hfst]
          exact hlenA
        rw [curToRefid_cons, if_pos ⟨hgt, Or.inr (Or.inr hflen)⟩]
        exact ⟨(r0 :: rest).map (fun r => r.2), rfl, hperm⟩
  · intro s0 c hsc hfilter
    subst hsc
    unfold Db.resolveTarget
    rw [resolveRows_spec]
    have hfilter2 : (db.candList t).filter
        (fun c2 => db.inScope c2 ((some s0).getD ⟨[], []⟩)) = [c] := by
      simpa using hfilter
    have hfst := rows_filter_fst db ((some s0).getD ⟨[], []⟩) (db.candList t)
    rw [hfilter2] at hfst ⊢
    simp only [List.map_cons, List.map_nil, List.cons_append, List.nil_append] at hfst ⊢
    rw [curToRefid_cons, if_neg]
    intro hc
    rcases hc.2 with h | h | h
    · exact h (by simp)
    · simp at h
    · rw [hfst] at h
      simp at h

/-- C1 witness: evaluation of `c1_resolve_target` on concrete stores — the
ambiguous name `Foo` resolves through the scope `b.h` to the struct defined
there, and an unmatchable name raises `InvalidTarget`. -/
theorem c1_resolve_target_witness :
    sampleDb2.resolveTarget ⟨none, toL "Foo"⟩ (some fileB) = .ok structFoo2 ∧
    structOnlyDb.resolveTarget ⟨none, toL "Foo"⟩ none = .error .invalidTarget :=
  ⟨(c1_resolve_target sampleDb2 ⟨none, toL "Foo"⟩ (some fileB)).2.2 fileB
      structFoo2 rfl (by decide),
   (c1_resolve_target structOnlyDb ⟨none, toL "Foo"⟩ none).1 (by decide)⟩

/-- A split position decomposes the string around the two-character
separator found there. -/
theorem split_decompose (s : PStr) (i : Nat) (c1 c2 : Char)
    (hsep : (s.drop i).take 2 = [c1, c2]) :
    s = s.take i ++ [c1, c2] ++ s.drop (i + 2) := by
  have h2 : s.drop i = [c1, c2] ++ s.drop (i + 2) := by
    conv_lhs => rw [← List.take_append_drop 2 (s.drop i)]
    rw [hsep, List.drop_drop]
  conv_lhs => rw [← List.take_append_drop i s, h2]
  rw [List.append_assoc]

/-- An acceptable path is non-empty. -/
theorem pathOk_ne_nil {p : PStr} (h : pathOk p = true) : p ≠ [] := by
  intro hp
  subst hp
  exact absurd h (by decide)

/-- C5: the identifier and target grammars round-trip.  A string accepted
by the refid grammar (`_refid_re`) is reproduced exactly by formatting the
parsed `RefId`, and likewise for the target grammar (`_target_re`); a
string matched by neither decomposition of a grammar makes the parser fail
(`DoxyFormatError` / `ValueError`), and the parser fails only on such
strings. -/
theorem c5_parse_format_roundtrip :
    (∀ (s : PStr) (r : RefId), refidParse s = some r → r.str = s) ∧
    (∀ (s : PStr) (t : Target), targetParse s = some t → t.str = s) ∧
    (∀ s : PStr, refidParse s = none ↔ ¬ RefIdAccepts s) ∧
    (∀ s : PStr, targetParse s = none ↔ ¬ TargetAccepts s) := by
  have hrdec : ∀ (s : PStr) (i : Nat),
      i ∈ refidSplits s → prefixOk (s.take i) = true ∧
        s = s.take i ++ ['_', '1'] ++ s.drop (i + 2) := by
    intro s i hmem
    unfold refidSplits at hmem
    rw [List.mem_filter] at hmem
    have hp := hmem.2
    simp only [decide_eq_true_eq, Bool.and_eq_true] at hp
    exact ⟨hp.1, split_decompose s i '_' '1' hp.2⟩
  have htdec : ∀ (s : PStr) (i : Nat),
      i ∈ targetSplits s → pathOk (s.take i) = true ∧
        s = s.take i ++ [':', ':'] ++ s.drop (i + 2) := by
    intro s i hmem
    unfold targetSplits at hmem
    rw [List.mem_filter] at hmem
    have hp := hmem.2
    simp only [decide_eq_true_eq, Bool.and_eq_true] at hp
    exact ⟨hp.1, split_decompose s i ':' ':' hp.2⟩
  refine ⟨?_, ?_, ?_, ?_⟩
  · intro s r h
    unfold refidParse at h
    cases hfind : (refidSplits s).find? (fun i => idOk (s.drop (i + 2))) with
    | some i =>
      rw [hfind] at h
      obtain ⟨hpre, hdec⟩ := hrdec s i (List.mem_of_find?_eq_some hfind)
      have hr : r = ⟨s.take i, s.drop (i + 2)⟩ := (Option.some.inj h).symm
      subst hr
      have hne : s.take i ≠ [] := by
        unfold prefixOk at hpre
        simp only [decide_eq_true_eq, Bool.and_eq_true] at hpre
        exact hpre.1
      unfold RefId.str
      rw [if_pos (by simpa using hne)]
      exact hdec.symm
    | none =>
      rw [hfind] at h
      by_cases hid : idOk s = true
      · rw [if_pos hid] at h
        have hr : r = ⟨[], s⟩ := (Option.some.inj h).symm
        subst hr
        unfold RefId.str
        rw [if_neg (by simp)]
      · rw [if_neg hid] at h
        exact Option.noConfusion h
  · intro s t h
    unfold targetParse at h
    cases hfind : (targetSplits s).find? (fun i => nameOk (s.drop (i + 2))) with
    | some i =>
      rw [hfind] at h
      obtain ⟨hpre, hdec⟩ := htdec s i (List.mem_of_find?_eq_some hfind)
      have ht : t = ⟨some (s.take i), s.drop (i + 2)⟩ := (Option.some.inj h).symm
      subst ht
      unfold Target.str
      dsimp only
      rw [if_pos (by simpa using pathOk_ne_nil hpre)]
      exact hdec.symm
    | none =>
      rw [hfind] at h
      by_cases hid : nameOk s = true
      · rw [if_pos hid] at h
        have ht : t = ⟨none, s⟩ := (Option.some.inj h).symm
        subst ht
        rfl
      · rw [if_neg hid] at h
        exact Option.noConfusion h
  · intro s
    constructor
    · intro hnone hacc
      unfold refidParse at hnone
      cases hfind : (refidSplits s).find? (fun i => idOk (s.drop (i + 2))) with
      | some i =>
        rw [hfind] at hnone
        exact Option.noConfusion hnone
      | none =>
        rw [hfind] at hnone
        by_cases hid : idOk s = true
        · rw [if_pos hid] at hnone
          exact Option.noConfusion hnone
        · rcases hacc with ⟨p, hh, hp, hio, heq⟩ | hio2
          · subst heq
            have hi : p.length ∈ refidSplits (p ++ ['_', '1'] ++ hh) := by
              unfold refidSplits
              rw [List.mem_filter]
              refine ⟨?_, ?_⟩
              · rw [List.mem_reverse, List.mem_range]
                simp only [List.length_append]
                omega
              · rw [List.append_assoc, List.take_left, List.drop_left]
                simp only [decide_eq_true_eq, Bool.and_eq_true]
                exact ⟨hp, by simp⟩
            have hcon := List.find?_eq_none.mp hfind p.length hi
            have hdr : (p ++ ['_', '1'] ++ hh).drop (p.length + 2) = hh :=
              List.drop_left' (by simp [List.length_append])
            exact hcon (by rw [hdr]; exact hio)
          · exact hid hio2
    · intro hnacc
      unfold refidParse
      cases hfind : (refidSplits s).find? (fun i => idOk (s.drop (i + 2))) with
      | some i =>
        exfalso
        apply hnacc
        obtain ⟨hpre, hdec⟩ := hrdec s i (List.mem_of_find?_eq_some hfind)
        have hio := List.find?_some hfind
        exact Or.inl ⟨s.take i, s.drop (i + 2), hpre, hio, hdec⟩
      | none =>
        dsimp only
        by_cases hid : idOk s = true
        · exact absurd (Or.inr hid) hnacc
        · rw [if_neg hid]
  · intro s
    constructor
    · intro hnone hacc
      unfold targetParse at hnone
      cases hfind : (targetSplits s).find? (fun i => nameOk (s.drop (i + 2))) with
      | some i =>
        rw [hfind] at hnone
        exact Option.noConfusion hnone
      | none =>
        rw [hfind] at hnone
        by_cases hid : nameOk s = true
        · rw [if_pos hid] at hnone
          exact Option.noConfusion hnone
        · rcases hacc with ⟨p, hh, hp, hio, heq⟩ | hio2
          · subst heq
            have hi : p.length ∈ targetSplits (p ++ [':', ':'] ++ hh) := by
              unfold targetSplits
              rw [List.mem_filter]
              refine ⟨?_, ?_⟩
              · rw [List.mem_reverse, List.mem_range]
                simp only [List.length_append]
                omega
              · rw [List.append_assoc, List.take_left, List.drop_left]
                simp only [decide_eq_true_eq, Bool.and_eq_true]
                exact ⟨hp, by simp⟩
            have hcon := List.find?_eq_none.mp hfind p.length hi
            have hdr : (p ++ [':', ':'] ++ hh).drop (p.length + 2) = hh :=
              List.drop_left' (by simp [List.length_append])
            exact hcon (by rw [hdr]; exact hio)
          · exact hid hio2
    · intro hnacc
      unfold targetParse
      cases hfind : (targetSplits s).find? (fun i => nameOk (s.drop (i + 2))) with
      | some i =>
        exfalso
        apply hnacc
        obtain ⟨hpre, hdec⟩ := htdec s i (List.mem_of_find?_eq_some hfind)
        have hio := List.find?_some hfind
        exact Or.inl ⟨s.take i, s.drop (i + 2), hpre, hio, hdec⟩
      | none =>
        dsimp only
        by_cases hid : nameOk s = true
        · exact absurd (Or.inr hid) hnacc
        · rw [if_neg hid]

/-- C5 witness: evaluation of `c5_parse_format_roundtrip` on concrete
strings — a namespaced refid and a path-qualified target round-trip, and a
malformed refid string is rejected exactly because no decomposition
accepts it. -/
theorem c5_parse_format_roundtrip_witness :
    RefId.str ⟨toL "structFoo", toL "a3f"⟩ = toL "structFoo_1a3f" ∧
    Target.str ⟨some (toL "dir/a.h"), toL "Foo::bar"⟩ = toL "dir/a.h::Foo::bar" ∧
    ¬ RefIdAccepts (toL "a_1") :=
  ⟨c5_parse_format_roundtrip.1 (toL "structFoo_1a3f") ⟨toL "structFoo", toL "a3f"⟩
      (by decide),
   c5_parse_format_roundtrip.2.1 (toL "dir/a.h::Foo::bar")
      ⟨some (toL "dir/a.h"), toL "Foo::bar"⟩ (by decide),
   (c5_parse_format_roundtrip.2.2.1 (toL "a_1")).mp (by decide)⟩

/-- `mkEdge` is injective in both arguments. -/
theorem mkEdge_inj {a b c d : RefId} (h : mkEdge a b = mkEdge c d) :
    a = c ∧ b = d := by
  unfold mkEdge at h
  injection h with h1 h2 h3 h4
  cases a
  cases b
  cases c
  cases d
  simp only at h1 h2 h3 h4
  subst h1
  subst h2
  subst h3
  subst h4
  exact ⟨rfl, rfl⟩

/-- A successful `insertEdge` leaves `elements` unchanged and adds exactly
the inserted edge to the membership of `hierarchy`. -/
theorem insertEdge_mem {db db2 : Db} {eg0 : Edge}
    (h : db.insertEdge eg0 = .ok db2) :
    db2.elements = db.elements ∧
    ∀ eg : Edge, eg ∈ db2.hierarchy ↔ eg ∈ db.hierarchy ∨ eg = eg0 := by
  unfold Db.insertEdge at h
  by_cases hc : db.elements.any (fun e => e.pfx = eg0.pfx ∧ e.id_ = eg0.id_) = true
  · rw [if_pos hc] at h
    have hdb2 : db2 = { db with
        hierarchy := db.hierarchy.filter (fun x => x ≠ eg0) ++ [eg0] } := by
      cases h
      rfl
    subst hdb2
    refine ⟨rfl, fun eg => ?_⟩
    simp only [List.mem_append, List.mem_filter, List.mem_singleton,
      decide_eq_true_eq]
    by_cases heq : eg = eg0
    · simp [heq]
    · simp [heq]
  · rw [if_neg hc] at h
    exact Except.noConfusion h

/-- A successful `_insert_element` adds exactly the parent edge (when a
parent is given) to the membership of `hierarchy`. -/
theorem insertElement_hierarchy {db db2 : Db} {r : RefId} {n : PStr}
    {k : Kind} {pOpt : Option RefId}
    (h : db.insertElement r n k pOpt = .ok db2) :
    ∀ eg : Edge, eg ∈ db2.hierarchy ↔
      eg ∈ db.hierarchy ∨ ∃ pr, pOpt = some pr ∧ eg = mkEdge r pr := by
  unfold Db.insertElement at h
  cases pOpt with
  | none =>
    have hdb2 : db2.hierarchy = db.hierarchy := by
      by_cases hc : db.elements.any (fun e => e.pfx = r.pfx ∧ e.id_ = r.id_) = true
      · rw [if_pos hc] at h
        cases h
        rfl
      · rw [if_neg hc] at h
        cases h
        rfl
    intro eg
    rw [hdb2]
    simp
  | some pr =>
    have h2 : (if db.elements.any (fun e => e.pfx = r.pfx ∧ e.id_ = r.id_) then db
        else { db with elements := db.elements ++ [⟨r.pfx, r.id_, n, k⟩] }).hierarchy
        = db.hierarchy := by
      by_cases hc : db.elements.any (fun e => e.pfx = r.pfx ∧ e.id_ = r.id_) = true
      · rw [if_pos hc]
      · rw [if_neg hc]
    have hmem := insertEdge_mem h
    intro eg
    rw [(hmem.2 eg), h2]
    simp

/-- Edges recorded by the member pass of `_read_index` under one compound:
only non-subordinate members contribute, each pointing at the compound. -/
theorem readIndexMembers_edges (c : IndexCompound) (ms : List IndexMember) :
    ∀ (db db2 : Db),
      ms.foldlM (fun d m => d.readIndexMember c m) db = .ok db2 →
      ∀ eg, eg ∈ db2.hierarchy →
        eg ∈ db.hierarchy ∨ ∃ m ∈ ms, m.kind ≠ Kind.ENUMVALUE ∧
          eg = mkEdge m.refid c.refid := by
  induction ms with
  | nil =>
    intro db db2 h eg hmem
    simp only [List.foldlM_nil] at h
    cases h
    exact Or.inl hmem
  | cons m rest ih =>
    intro db db2 h eg hmem
    rw [List.foldlM_cons] at h
    cases hstep : db.readIndexMember c m with
    | error e =>
      rw [hstep] at h
      exact Except.noConfusion h
    | ok db' =>
      rw [hstep] at h
      have hrest : rest.foldlM (fun d m => d.readIndexMember c m) db' = .ok db2 := h
      rcases ih db' db2 hrest eg hmem with hin | ⟨m2, hm2, hk2, heq2⟩
      · unfold Db.readIndexMember at hstep
        have := insertElement_hierarchy hstep eg
        rcases this.mp hin with hin2 | ⟨pr, hpr, hegpr⟩
        · exact Or.inl hin2
        · by_cases hk : m.kind = Kind.ENUMVALUE
          · rw [if_pos hk] at hpr
            exact Option.noConfusion hpr
          · rw [if_neg hk] at hpr
            refine Or.inr ⟨m, List.mem_cons_self m rest, hk, ?_⟩
            rw [hegpr, Option.some.inj hpr]
      · exact Or.inr ⟨m2, List.mem_cons_of_mem m hm2, hk2, heq2⟩

/-- Edges recorded by the manifest phase `_read_index`: every hierarchy row
of the resulting store is either pre-existing or links a non-subordinate
member to its declaring compound. -/
theorem readIndex_edges (idx : List IndexCompound) :
    ∀ (db db2 : Db), db.readIndex idx = .ok db2 →
      ∀ eg, eg ∈ db2.hierarchy →
        eg ∈ db.hierarchy ∨ ∃ c ∈ idx, ∃ m ∈ c.members,
          m.kind ≠ Kind.ENUMVALUE ∧ eg = mkEdge m.refid c.refid := by
  induction idx with
  | nil =>
    intro db db2 h eg hmem
    unfold Db.readIndex at h
    simp only [List.foldlM_nil] at h
    cases h
    exact Or.inl hmem
  | cons c rest ih =>
    intro db db2 h eg hmem
    unfold Db.readIndex at h
    rw [List.foldlM_cons] at h
    cases hstep : db.readIndexCompound c with
    | error e =>
      rw [hstep] at h
      exact Except.noConfusion h
    | ok db' =>
      rw [hstep] at h
      have hrest : db'.readIndex rest = .ok db2 := h
      rcases ih db' db2 hrest eg hmem with hin | ⟨c2, hc2, m2, hm2, hk2, heq2⟩
      · unfold Db.readIndexCompound at hstep
        cases hmstep : c.members.foldlM (fun d m => d.readIndexMember c m) db with
        | error e =>
          rw [hmstep] at hstep
          exact Except.noConfusion hstep
        | ok dbm =>
          rw [hmstep] at hstep
          have hins : dbm.insertElement c.refid c.name c.kind none = .ok db' := hstep
          have h1 := insertElement_hierarchy hins eg
          rcases h1.mp hin with hin2 | ⟨pr, hpr, _⟩
          · rcases readIndexMembers_edges c c.members db dbm hmstep eg hin2 with
              hin3 | ⟨m2, hm2, hk2, heq2⟩
            · exact Or.inl hin3
            · exact Or.inr ⟨c, List.mem_cons_self c rest, m2, hm2, hk2, heq2⟩
          · exact Option.noConfusion hpr
      · exact Or.inr ⟨c2, List.mem_cons_of_mem c hc2, m2, hm2, hk2, heq2⟩

/-- Edges that a successful run of the `_read_inner` loop records for a
given `start`-event stream, starting from a given `p_refid` state.  This
mirrors `readInnerStep` branch by branch (branches that would raise are
irrelevant: the function is only consulted for successful runs). -/
def innerIntents (p : Option RefId) : List (Option Xml × Xml) → List Edge
  | [] => []
  | pe :: rest =>
    let e := pe.2
    if e.tag = toL "doxygen" then innerIntents p rest
    else if e.tag = toL "compounddef" then
      match e.attr? (toL "id") with
      | some s =>
        match refidParse s with
        | some r => innerIntents (some r) rest
        | none => []
      | none => []
    else if e.tag = toL "enumvalue" then
      match pe.1 with
      | none => []
      | some par =>
        if par.tag = toL "memberdef" then
          match par.attr? (toL "id") with
          | some sp =>
            match refidParse sp with
            | some tp =>
              match e.attr? (toL "id") with
              | some se =>
                match refidParse se with
                | some tr => mkEdge tr tp :: innerIntents p rest
                | none => []
              | none => []
            | none => []
          | none => []
        else []
    else if e.tag.take 5 = toL "inner" ∧ Kind.tagSupported (e.tag.drop 5) then
      match e.attr? (toL "refid") with
      | some se =>
        match refidParse se with
        | some tr =>
          match p with
          | none => []
          | some pp => mkEdge tr pp :: innerIntents p rest
        | none => []
      | none => []
    else innerIntents p rest

/-- Unfolding of `innerIntents` on a skipped `doxygen` element. -/
theorem innerIntents_doxygen (p : Option RefId) (par? : Option Xml) (e : Xml)
    (rest : List (Option Xml × Xml)) (h1 : e.tag = toL "doxygen") :
    innerIntents p ((par?, e) :: rest) = innerIntents p rest := by
  conv_lhs => unfold innerIntents
  dsimp only
  rw [if_pos h1]

/-- Unfolding of `innerIntents` on a `compounddef` element. -/
theorem innerIntents_compounddef (p : Option RefId) (par? : Option Xml)
    (e : Xml) (rest : List (Option Xml × Xml)) (s : PStr) (r : RefId)
    (h1 : ¬ e.tag = toL "doxygen") (h2 : e.tag = toL "compounddef")
    (hattr : e.attr? (toL "id") = some s) (hparse : refidParse s = some r) :
    innerIntents p ((par?, e) :: rest) = innerIntents (some r) rest := by
  conv_lhs => unfold innerIntents
  dsimp only
  rw [if_neg h1, if_pos h2, hattr]
  dsimp only
  simp only [hparse]

/-- Unfolding of `innerIntents` on an `enumvalue` under a `memberdef`. -/
theorem innerIntents_enumvalue (p : Option RefId) (par? : Option Xml)
    (e par : Xml) (rest : List (Option Xml × Xml)) (sp se : PStr)
    (tp tr : RefId)
    (h1 : ¬ e.tag = toL "doxygen") (h2 : ¬ e.tag = toL "compounddef")
    (h3 : e.tag = toL "enumvalue") (hpar : par? = some par)
    (h4 : par.tag = toL "memberdef")
    (hattrp : par.attr? (toL "id") = some sp)
    (hparsep : refidParse sp = some tp)
    (hattre : e.attr? (toL "id") = some se)
    (hparsee : refidParse se = some tr) :
    innerIntents p ((par?, e) :: rest) =
      mkEdge tr tp :: innerIntents p rest := by
  conv_lhs => unfold innerIntents
  dsimp only
  rw [if_neg h1, if_neg h2, if_pos h3, hpar]
  dsimp only
  rw [if_pos h4, hattrp]
  dsimp only
  rw [hparsep]
  dsimp only
  rw [hattre]
  dsimp only
  simp only [hparsee]

/-- Unfolding of `innerIntents` on a supported `inner<kind>` reference. -/
theorem innerIntents_inner (p : Option RefId) (par? : Option Xml) (e : Xml)
    (rest : List (Option Xml × Xml)) (se : PStr) (tr pp : RefId)
    (h1 : ¬ e.tag = toL "doxygen") (h2 : ¬ e.tag = toL "compounddef")
    (h3 : ¬ e.tag = toL "enumvalue")
    (h5 : e.tag.take 5 = toL "inner" ∧ Kind.tagSupported (e.tag.drop 5) = true)
    (hattre : e.attr? (toL "refid") = some se)
    (hparsee : refidParse se = some tr) (hp : p = some pp) :
    innerIntents p ((par?, e) :: rest) =
      mkEdge tr pp :: innerIntents p rest := by
  conv_lhs => unfold innerIntents
  dsimp only
  rw [if_neg h1, if_neg h2, if_neg h3, if_pos h5, hattre]
  dsimp only
  rw [hparsee]
  dsimp only
  simp only [hp]

/-- Unfolding of `innerIntents` on any other skipped element. -/
theorem innerIntents_skip (p : Option RefId) (par? : Option Xml) (e : Xml)
    (rest : List (Option Xml × Xml))
    (h1 : ¬ e.tag = toL "doxygen") (h2 : ¬ e.tag = toL "compounddef")
    (h3 : ¬ e.tag = toL "enumvalue")
    (h5 : ¬(e.tag.take 5 = toL "inner" ∧
      Kind.tagSupported (e.tag.drop 5) = true)) :
    innerIntents p ((par?, e) :: rest) = innerIntents p rest := by
  conv_lhs => unfold innerIntents
  dsimp only
  rw [if_neg h1, if_neg h2, if_neg h3, if_neg h5]

/-- A successful run of the `_read_inner` loop over an event stream records
exactly the intended edges of the stream, on top of the starting store. -/
theorem foldInner_mem (steps : List (Option Xml × Xml)) :
    ∀ (db : Db) (p : Option RefId) (db2 : Db) (p2 : Option RefId),
      steps.foldlM readInnerStep (db, p) = .ok (db2, p2) →
      ∀ eg : Edge, eg ∈ db2.hierarchy ↔
        eg ∈ db.hierarchy ∨ eg ∈ innerIntents p steps := by
  induction steps with
  | nil =>
    intro db p db2 p2 h eg
    simp only [List.foldlM_nil] at h
    cases h
    simp [innerIntents]
  | cons pe rest ih =>
    intro db p db2 p2 h eg
    rw [List.foldlM_cons] at h
    cases hstep : readInnerStep (db, p) pe with
    | error e =>
      rw [hstep] at h
      exact Except.noConfusion h
    | ok st' =>
      rw [hstep] at h
      obtain ⟨db', p'⟩ := st'
      have hrest := ih db' p' db2 p2 h eg
      obtain ⟨par?, e⟩ := pe
      unfold readInnerStep at hstep
      dsimp only at hstep
      by_cases h1 : e.tag = toL "doxygen"
      · rw [if_pos h1] at hstep
        cases hstep
        rw [hrest, innerIntents_doxygen p par? e rest h1]
      · rw [if_neg h1] at hstep
        by_cases h2 : e.tag = toL "compounddef"
        · rw [if_pos h2] at hstep
          cases hattr : e.attr? (toL "id") with
          | none =>
            rw [show e.refidAttr (toL "id") = .error .keyError from by
              unfold Xml.refidAttr; simp only [hattr]] at hstep
            exact Except.noConfusion hstep
          | some s =>
            cases hparse : refidParse s with
            | none =>
              rw [show e.refidAttr (toL "id") = .error .doxyFormatError from by
                unfold Xml.refidAttr refidOf; simp only [hattr, hparse]] at hstep
              exact Except.noConfusion hstep
            | some r =>
              rw [show e.refidAttr (toL "id") = .ok r from by
                unfold Xml.refidAttr refidOf; simp only [hattr, hparse]] at hstep
              have hdb : db' = db ∧ p' = some r := by
                cases hstep
                exact ⟨rfl, rfl⟩
              rw [hrest, hdb.1, hdb.2,
                innerIntents_compounddef p par? e rest s r h1 h2 hattr hparse]
        · rw [if_neg h2] at hstep
          by_cases h3 : e.tag = toL "enumvalue"
          · rw [if_pos h3] at hstep
            cases hpar : par? with
            | none =>
              rw [hpar] at hstep
              exact Except.noConfusion hstep
            | some par =>
              rw [hpar] at hstep
              dsimp only at hstep
              by_cases h4 : par.tag = toL "memberdef"
              · rw [if_neg (by simpa using h4)] at hstep
                cases hattrp : par.attr? (toL "id") with
                | none =>
                  rw [show par.refidAttr (toL "id") = .error .keyError from by
                    unfold Xml.refidAttr; simp only [hattrp]] at hstep
                  exact Except.noConfusion hstep
                | some sp =>
                  cases hparsep : refidParse sp with
                  | none =>
                    rw [show par.refidAttr (toL "id") = .error .doxyFormatError from by
                      unfold Xml.refidAttr refidOf; simp only [hattrp, hparsep]] at hstep
                    exact Except.noConfusion hstep
                  | some tp =>
                    rw [show par.refidAttr (toL "id") = .ok tp from by
                      unfold Xml.refidAttr refidOf; simp only [hattrp, hparsep]] at hstep
                    cases hattre : e.attr? (toL "id") with
                    | none =>
                      rw [show e.refidAttr (toL "id") = .error .keyError from by
                        unfold Xml.refidAttr; simp only [hattre]] at hstep
                      exact Except.noConfusion hstep
                    | some se =>
                      cases hparsee : refidParse se with
                      | none =>
                        rw [show e.refidAttr (toL "id") = .error .doxyFormatError from by
                          unfold Xml.refidAttr refidOf; simp only [hattre, hparsee]] at hstep
                        exact Except.noConfusion hstep
                      | some tr =>
                        rw [show e.refidAttr (toL "id") = .ok tr from by
                          unfold Xml.refidAttr refidOf; simp only [hattre, hparsee]] at hstep
                        have hstep2 : db.insertEdge (mkEdge tr tp) >>=
                            (fun db1 => Except.ok (db1, p)) = .ok (db', p') := hstep
                        cases hins : db.insertEdge (mkEdge tr tp) with
                        | error err =>
                          rw [hins] at hstep2
                          exact Except.noConfusion hstep2
                        | ok dbi =>
                          rw [hins] at hstep2
                          have hdb : db' = dbi ∧ p' = p := by
                            cases hstep2
                            exact ⟨rfl, rfl⟩
                          rw [hrest, hdb.1, hdb.2,
                            innerIntents_enumvalue p (some par) e par rest sp se
                              tp tr h1 h2 h3 rfl h4 hattrp hparsep hattre hparsee,
                            (insertEdge_mem hins).2 eg]
                          simp only [List.mem_cons]
                          constructor
                          · rintro ((hx | hx) | hx)
                            · exact Or.inl hx
                            · exact Or.inr (Or.inl hx)
                            · exact Or.inr (Or.inr hx)
                          · rintro (hx | hx | hx)
                            · exact Or.inl (Or.inl hx)
                            · exact Or.inl (Or.inr hx)
                            · exact Or.inr hx
              · rw [if_pos (by simpa using h4)] at hstep
                exact Except.noConfusion hstep
          · rw [if_neg h3] at hstep
            by_cases h5 : e.tag.take 5 = toL "inner" ∧
                Kind.tagSupported (e.tag.drop 5) = true
            · rw [if_pos (by simpa using h5)] at hstep
              cases hattre : e.attr? (toL "refid") with
              | none =>
                rw [show e.refidAttr (toL "refid") = .error .keyError from by
                  unfold Xml.refidAttr; simp only [hattre]] at hstep
                exact Except.noConfusion hstep
              | some se =>
                cases hparsee : refidParse se with
                | none =>
                  rw [show e.refidAttr (toL "refid") = .error .doxyFormatError from by
                    unfold Xml.refidAttr refidOf; simp only [hattre, hparsee]] at hstep
                  exact Except.noConfusion hstep
                | some tr =>
                  rw [show e.refidAttr (toL "refid") = .ok tr from by
                    unfold Xml.refidAttr refidOf; simp only [hattre, hparsee]] at hstep
                  cases hp : p with
                  | none =>
                    rw [hp] at hstep
                    exact Except.noConfusion hstep
                  | some pp =>
                    rw [hp] at hstep
                    dsimp only at hstep
                    have hstep2 : db.insertEdge (mkEdge tr pp) >>=
                        (fun db1 => Except.ok (db1, some pp)) = .ok (db', p') := hstep
                    cases hins : db.insertEdge (mkEdge tr pp) with
                    | error err =>
                      rw [hins] at hstep2
                      exact Except.noConfusion hstep2
                    | ok dbi =>
                      rw [hins] at hstep2
                      have hdb : db' = dbi ∧ p' = some pp := by
                        cases hstep2
                        exact ⟨rfl, rfl⟩
                      rw [hrest, hdb.1, hdb.2,
                        innerIntents_inner (some pp) par? e rest se tr pp
                          h1 h2 h3 (by simpa using h5) hattre hparsee rfl,
                        (insertEdge_mem hins).2 eg]
                      simp only [List.mem_cons]
                      constructor
                      · rintro ((hx | hx) | hx)
                        · exact Or.inl hx
                        · exact Or.inr (Or.inl hx)
                        · exact Or.inr (Or.inr hx)
                      · rintro (hx | hx | hx)
                        · exact Or.inl (Or.inl hx)
                        · exact Or.inl (Or.inr hx)
                        · exact Or.inr hx
            · rw [if_neg (by simpa using h5)] at hstep
              have hdb : db' = db ∧ p' = p := by
                cases hstep
                exact ⟨rfl, rfl⟩
              rw [hrest, hdb.1, hdb.2,
                innerIntents_skip p par? e rest h1 h2 h3 (by simpa using h5)]

/-- If a successful `_read_inner` run passes over an `enumvalue` element
nested under a `memberdef`, the resulting store contains the hierarchy edge
from the enum value to that memberdef. -/
theorem foldInner_occurrence (steps : List (Option Xml × Xml)) :
    ∀ (db : Db) (p : Option RefId) (db2 : Db) (p2 : Option RefId),
      steps.foldlM readInnerStep (db, p) = .ok (db2, p2) →
      ∀ (par evEl : Xml) (sp se : PStr) (tp tr : RefId),
        (some par, evEl) ∈ steps →
        par.tag = toL "memberdef" → evEl.tag = toL "enumvalue" →
        par.attr? (toL "id") = some sp → refidParse sp = some tp →
        evEl.attr? (toL "id") = some se → refidParse se = some tr →
        mkEdge tr tp ∈ db2.hierarchy := by
  induction steps with
  | nil =>
    intro db p db2 p2 h par evEl sp se tp tr hmem
    simp at hmem
  | cons pe rest ih =>
    intro db p db2 p2 h par evEl sp se tp tr hmem h4 h3 hattrp hparsep hattre hparsee
    rw [List.foldlM_cons] at h
    cases hstep : readInnerStep (db, p) pe with
    | error e =>
      rw [hstep] at h
      exact Except.noConfusion h
    | ok st' =>
      rw [hstep] at h
      obtain ⟨db', p'⟩ := st'
      rcases List.mem_cons.mp hmem with heq | hmem2
      · subst heq
        unfold readInnerStep at hstep
        dsimp only at hstep
        have h1 : ¬ evEl.tag = toL "doxygen" := by
          rw [h3]
          decide
        have h2 : ¬ evEl.tag = toL "compounddef" := by
          rw [h3]
          decide
        rw [if_neg h1, if_neg h2, if_pos h3, if_neg (by simpa using h4)] at hstep
        rw [show par.refidAttr (toL "id") = .ok tp from by
          unfold Xml.refidAttr refidOf; simp only [hattrp, hparsep]] at hstep
        rw [show evEl.refidAttr (toL "id") = .ok tr from by
          unfold Xml.refidAttr refidOf; simp only [hattre, hparsee]] at hstep
        have hstep2 : db.insertEdge (mkEdge tr tp) >>=
            (fun db1 => Except.ok (db1, p)) = .ok (db', p') := hstep
        cases hins : db.insertEdge (mkEdge tr tp) with
        | error err =>
          rw [hins] at hstep2
          exact Except.noConfusion hstep2
        | ok dbi =>
          rw [hins] at hstep2
          have hdb : db' = dbi := by
            cases hstep2
            rfl
          have hmemi : mkEdge tr tp ∈ db'.hierarchy := by
            rw [hdb, (insertEdge_mem hins).2]
            exact Or.inr rfl
          exact (foldInner_mem rest db' p' db2 p2 h (mkEdge tr tp)).mpr
            (Or.inl hmemi)
      · exact ih db' p' db2 p2 h par evEl sp se tp tr hmem2 h4 h3 hattrp
          hparsep hattre hparsee

/-- Hierarchy membership after `_read_inner` on one detail document. -/
theorem readInner_mem {db db2 : Db} {doc : Xml}
    (h : db.readInner doc = .ok db2) :
    ∀ eg, eg ∈ db2.hierarchy ↔ eg ∈ db.hierarchy ∨
      eg ∈ innerIntents none (Xml.preorder none doc) := by
  unfold Db.readInner at h
  cases hfold : (Xml.preorder none doc).foldlM readInnerStep (db, none) with
  | error e =>
    rw [hfold] at h
    exact Except.noConfusion h
  | ok st =>
    rw [hfold] at h
    obtain ⟨dbf, pf⟩ := st
    have h2 : (Except.ok dbf : Except PyErr Db) = .ok db2 := h
    have hdb2 : dbf = db2 := by
      cases h2
      rfl
    subst hdb2
    exact foldInner_mem (Xml.preorder none doc) db none dbf pf hfold

/-- Hierarchy membership after the whole detail phase. -/
theorem loadAll_mem (docs : List Xml) :
    ∀ (db db2 : Db), db.loadAllInner docs = .ok db2 →
      ∀ eg, eg ∈ db2.hierarchy ↔ eg ∈ db.hierarchy ∨
        ∃ doc ∈ docs, eg ∈ innerIntents none (Xml.preorder none doc) := by
  induction docs with
  | nil =>
    intro db db2 h eg
    unfold Db.loadAllInner at h
    simp only [List.foldlM_nil] at h
    cases h
    simp
  | cons d rest ih =>
    intro db db2 h eg
    unfold Db.loadAllInner at h
    rw [List.foldlM_cons] at h
    cases hstep : db.readInner d with
    | error e =>
      rw [hstep] at h
      exact Except.noConfusion h
    | ok db' =>
      rw [hstep] at h
      have hiff := ih db' db2 h eg
      have hone := readInner_mem hstep eg
      rw [hiff, hone]
      simp only [List.mem_cons]
      constructor
      · rintro ((hx | hx) | ⟨doc, hdoc, hx⟩)
        · exact Or.inl hx
        · exact Or.inr ⟨d, Or.inl rfl, hx⟩
        · exact Or.inr ⟨doc, Or.inr hdoc, hx⟩
      · rintro (hx | ⟨doc, hdoc | hdoc, hx⟩)
        · exact Or.inl (Or.inl hx)
        · exact Or.inl (Or.inr (hdoc ▸ hx))
        · exact Or.inr ⟨doc, hdoc, hx⟩

/-- The enum-value edge recorded while reading some detail document
survives to the end of the detail phase. -/
theorem loadAll_occurrence (docs : List Xml) :
    ∀ (db db2 : Db), db.loadAllInner docs = .ok db2 →
      ∀ doc ∈ docs, ∀ (par evEl : Xml) (sp se : PStr) (tp tr : RefId),
        (some par, evEl) ∈ Xml.preorder none doc →
        par.tag = toL "memberdef" → evEl.tag = toL "enumvalue" →
        par.attr? (toL "id") = some sp → refidParse sp = some tp →
        evEl.attr? (toL "id") = some se → refidParse se = some tr →
        mkEdge tr tp ∈ db2.hierarchy := by
  induction docs with
  | nil =>
    intro db db2 h doc hdoc
    simp at hdoc
  | cons d rest ih =>
    intro db db2 h doc hdoc par evEl sp se tp tr hmem h4 h3 hattrp hparsep
      hattre hparsee
    unfold Db.loadAllInner at h
    rw [List.foldlM_cons] at h
    cases hstep : db.readInner d with
    | error e =>
      rw [hstep] at h
      exact Except.noConfusion h
    | ok db' =>
      rw [hstep] at h
      rcases List.mem_cons.mp hdoc with heq | hdoc2
      · subst heq
        have hin : mkEdge tr tp ∈ db'.hierarchy := by
          unfold Db.readInner at hstep
          cases hfold : (Xml.preorder none doc).foldlM readInnerStep (db, none) with
          | error e =>
            rw [hfold] at hstep
            exact Except.noConfusion hstep
          | ok st =>
            rw [hfold] at hstep
            obtain ⟨dbf, pf⟩ := st
            have h2 : (Except.ok dbf : Except PyErr Db) = .ok db' := hstep
            have hdb2 : dbf = db' := by
              cases h2
              rfl
            subst hdb2
            exact foldInner_occurrence (Xml.preorder none doc) db none dbf pf
              hfold par evEl sp se tp tr hmem h4 h3 hattrp hparsep hattre hparsee
        exact (loadAll_mem rest db' db2 h (mkEdge tr tp)).mpr (Or.inl hin)
      · exact ih db' db2 h doc hdoc2 par evEl sp se tp tr hmem h4 h3 hattrp
          hparsep hattre hparsee

/-- C3: subordinate members are re-parented by the detail phase.  If the
manifest lists an enum value `ev` as a direct child of a file `f` (every
manifest occurrence of `ev` carrying the subordinate kind), the manifest
phase leaves `ev` with no parent edge at all; if some detail document nests
`ev` as an `enumvalue` under the `memberdef` of an enum `m`, the detail
phase records the edge `ev → m`; and `ev` never points at the file
(given that no detail document records such an intent).  Moreover an
`enumvalue` element whose enclosing element is not a `memberdef` makes the
detail phase fail with `ConsistencyError`. -/
theorem c3_enumvalue_reparenting :
    ∀ (idx : List IndexCompound) (docs : List Xml) (db0 db1 : Db)
      (f m ev : RefId),
      Db.readIndex (Db.empty []) idx = .ok db0 →
      db0.loadAllInner docs = .ok db1 →
      (∃ c ∈ idx, c.refid = f ∧ c.kind = Kind.FILE ∧
        ∃ mm ∈ c.members, mm.refid = ev ∧ mm.kind = Kind.ENUMVALUE) →
      (∀ c ∈ idx, ∀ mm ∈ c.members, mm.refid = ev → mm.kind = Kind.ENUMVALUE) →
      (∃ doc ∈ docs, ∃ par evEl : Xml, ∃ sp se : PStr,
        (some par, evEl) ∈ Xml.preorder none doc ∧
        par.tag = toL "memberdef" ∧ evEl.tag = toL "enumvalue" ∧
        par.attr? (toL "id") = some sp ∧ refidParse sp = some m ∧
        evEl.attr? (toL "id") = some se ∧ refidParse se = some ev) →
      (∀ doc ∈ docs, mkEdge ev f ∉ innerIntents none (Xml.preorder none doc)) →
      (mkEdge ev m ∈ db1.hierarchy ∧
       mkEdge ev f ∉ db1.hierarchy ∧
       (∀ pr : RefId, mkEdge ev pr ∉ db0.hierarchy)) ∧
      (∀ (st : Db × Option RefId) (par evEl : Xml),
        evEl.tag = toL "enumvalue" → par.tag ≠ toL "memberdef" →
        readInnerStep st (some par, evEl) = .error .consistencyError) := by
  intro idx docs db0 db1 f m ev hidx hload hman hallev hdoc hno
  constructor
  · refine ⟨?_, ?_, ?_⟩
    · obtain ⟨doc, hdocmem, par, evEl, sp, se, hmem, h4, h3, hattrp, hparsep,
        hattre, hparsee⟩ := hdoc
      exact loadAll_occurrence docs db0 db1 hload doc hdocmem par evEl sp se
        m ev hmem h4 h3 hattrp hparsep hattre hparsee
    · intro hin
      rcases (loadAll_mem docs db0 db1 hload (mkEdge ev f)).mp hin with
        hin0 | ⟨doc, hdocm, hint⟩
      · rcases readIndex_edges idx (Db.empty []) db0 hidx (mkEdge ev f) hin0 with
          hempty | ⟨c, hc, mm, hmm, hk, heq⟩
        · simp [Db.empty] at hempty
        · exact hk (hallev c hc mm hmm (mkEdge_inj heq).1.symm)
      · exact hno doc hdocm hint
    · intro pr hin
      rcases readIndex_edges idx (Db.empty []) db0 hidx (mkEdge ev pr) hin with
        hempty | ⟨c, hc, mm, hmm, hk, heq⟩
      · simp [Db.empty] at hempty
      · exact hk (hallev c hc mm hmm (mkEdge_inj heq).1.symm)
  · intro st par evEl h3 h4
    obtain ⟨db, p⟩ := st
    unfold readInnerStep
    dsimp only
    rw [if_neg (by rw [h3]; decide), if_neg (by rw [h3]; decide), if_pos h3]
    rw [if_pos h4]

/-- Witness data: refid of the file `c.h`. -/
def fileCH : RefId := ⟨[], toL "c_8h"⟩

/-- Witness data: refid of enum `Color`. -/
def enumColor : RefId := ⟨toL "c_8h", toL "ce"⟩

/-- Witness data: refid of enum value `RED`. -/
def evRed : RefId := ⟨toL "c_8h", toL "red"⟩

/-- Witness manifest: file `c.h` declaring enum `Color` and (misattributed)
enum value `RED` as its direct children. -/
def idxW : List IndexCompound :=
  [⟨fileCH, Kind.FILE, toL "c.h",
    [⟨enumColor, Kind.ENUM, toL "Color"⟩, ⟨evRed, Kind.ENUMVALUE, toL "RED"⟩]⟩]

/-- Witness detail document for `c.h`: the `enumvalue` nested under the
enum's `memberdef`. -/
def docW : Xml :=
  .mk (toL "doxygen") []
    [.mk (toL "compounddef") [(toL "id", toL "c_8h")]
      [.mk (toL "memberdef") [(toL "id", toL "c_8h_1ce")]
        [.mk (toL "enumvalue") [(toL "id", toL "c_8h_1red")] []]]]

/-- Witness store after the manifest phase on `idxW`. -/
def dbW0 : Db :=
  ⟨[],
   [⟨toL "c_8h", toL "ce", toL "Color", Kind.ENUM⟩,
    ⟨toL "c_8h", toL "red", toL "RED", Kind.ENUMVALUE⟩,
    ⟨[], toL "c_8h", toL "c.h", Kind.FILE⟩],
   [⟨toL "c_8h", toL "ce", [], toL "c_8h"⟩]⟩

/-- Witness store after the detail phase on `docW`. -/
def dbW1 : Db :=
  ⟨[],
   dbW0.elements,
   [⟨toL "c_8h", toL "ce", [], toL "c_8h"⟩,
    ⟨toL "c_8h", toL "red", toL "c_8h", toL "ce"⟩]⟩

/-- C3 witness: evaluation of `c3_enumvalue_reparenting` on the `c.h` /
`Color` / `RED` scenario — after both phases `RED` hangs off `Color` and
not off `c.h`. -/
theorem c3_enumvalue_reparenting_witness :
    mkEdge evRed enumColor ∈ dbW1.hierarchy ∧
    mkEdge evRed fileCH ∉ dbW1.hierarchy ∧
    (∀ pr : RefId, mkEdge evRed pr ∉ dbW0.hierarchy) := by
  have h := c3_enumvalue_reparenting idxW [docW] dbW0 dbW1 fileCH enumColor evRed
    (by decide) (by decide)
    (by decide)
    (by decide)
    ⟨docW, by decide, Xml.mk (toL "memberdef") [(toL "id", toL "c_8h_1ce")]
        [Xml.mk (toL "enumvalue") [(toL "id", toL "c_8h_1red")] []],
      Xml.mk (toL "enumvalue") [(toL "id", toL "c_8h_1red")] [],
      toL "c_8h_1ce", toL "c_8h_1red",
      by decide, by decide, by decide, by decide, by decide, by decide, by decide⟩
    (by decide)
  exact h.1

/-- Stored name of a refid (the `elements.name` column), defaulting to the
empty string for a missing row. -/
def nmOf (db : Db) (x : RefId) : PStr := ((db.getElem? x).map Element.name).getD []

/-- Stored kind of a refid (the `elements.kind` column), defaulting to
`CLASS` for a missing row. -/
def kindOf (db : Db) (x : RefId) : Kind :=
  ((db.getElem? x).map Element.kind).getD Kind.CLASS

/-- `_match_path` accepts a stored name against itself as the filter. -/
theorem matchPath_refl (p : PStr) : matchPath p (some p) = true := by
  by_cases h0 : p = []
  · simp [matchPath, h0]
  · simp [matchPath, h0]

/-- A successful primary-key lookup returns a stored row carrying exactly
the looked-up key. -/
theorem getElem?_mem_key {db : Db} {x : RefId} {e : Element}
    (h : db.getElem? x = some e) : e ∈ db.elements ∧ e.key = x := by
  unfold Db.getElem? at h
  refine ⟨List.mem_of_find?_eq_some h, ?_⟩
  have hp := List.find?_some h
  simp only [decide_eq_true_eq] at hp
  obtain ⟨h1, h2⟩ := hp
  cases x
  simp [Element.key]
  exact ⟨h1, h2⟩

/-- The CTE evaluation loop stops on an empty queue. -/
theorem ancBfs_nil_queue (db : Db) (fuel : Nat) (seen : List (Nat × RefId)) :
    db.ancBfs fuel [] seen = [] := by
  cases fuel <;> rfl

/-- One dequeue step of the CTE evaluation loop. -/
theorem ancBfs_cons (db : Db) (fuel : Nat) (i : Nat) (y : RefId)
    (qs seen : List (Nat × RefId)) :
    db.ancBfs (fuel + 1) ((i, y) :: qs) seen =
      (i, y) :: db.ancBfs fuel
        (qs ++ addFresh seen [] ((db.nonSynParents y).map (fun p => (i + 1, p))))
        (seen ++ addFresh seen [] ((db.nonSynParents y).map (fun p => (i + 1, p)))) :=
  rfl

/-- On a store whose non-synthetic parent relation forms a single upward
chain from `y`, the CTE loop emits exactly the chain, with consecutive
levels. -/
theorem ancBfs_chain (db : Db) :
    ∀ (xs : List RefId) (y : RefId) (i fuel : Nat) (seen : List (Nat × RefId)),
      (∀ p ∈ (y :: xs).zip xs, db.nonSynParents p.1 = [p.2]) →
      db.nonSynParents ((y :: xs).getLastD y) = [] →
      xs.length + 1 ≤ fuel →
      (∀ q ∈ seen, q.1 ≤ i) →
      db.ancBfs fuel [(i, y)] seen = (y :: xs).enumFrom i := by
  intro xs
  induction xs with
  | nil =>
    intro y i fuel seen _ hlast hlen hseen
    cases fuel with
    | zero => omega
    | succ f =>
      have hl : db.nonSynParents y = [] := by
        rw [List.getLastD_cons] at hlast
        exact hlast
      simp [ancBfs_cons, hl, addFresh, ancBfs_nil_queue]
  | cons z rest ih =>
    intro y i fuel seen hpairs hlast hlen hseen
    cases fuel with
    | zero => simp only [List.length_cons] at hlen; omega
    | succ f =>
      rw [ancBfs_cons]
      have hy : db.nonSynParents y = [z] := by
        refine hpairs (y, z) ?_
        rw [List.zip_cons_cons]
        exact List.mem_cons_self _ _
      rw [hy]
      simp only [List.map_cons, List.map_nil]
      have hnotin : ((i + 1 : Nat), z) ∉ seen := fun hm => absurd (hseen _ hm) (by omega)
      have hfresh : addFresh seen [] [((i + 1 : Nat), z)] = [(i + 1, z)] := by
        simp [addFresh, hnotin]
      rw [hfresh, List.nil_append]
      have hpairs2 : ∀ p ∈ (z :: rest).zip rest, db.nonSynParents p.1 = [p.2] := by
        intro p hp
        refine hpairs p ?_
        rw [List.zip_cons_cons]
        exact List.mem_cons_of_mem _ hp
      have hlast2 : db.nonSynParents ((z :: rest).getLastD z) = [] := by
        rw [List.getLastD_cons]
        rw [List.getLastD_cons, List.getLastD_cons] at hlast
        exact hlast
      have hlen2 : rest.length + 1 ≤ f := by
        simp only [List.length_cons] at hlen; omega
      have hseen2 : ∀ q ∈ seen ++ [(i + 1, z)], q.1 ≤ i + 1 := by
        intro q hq
        rcases List.mem_append.mp hq with h | h
        · exact Nat.le_succ_of_le (hseen q h)
        · rw [List.mem_singleton] at h
          subst h
          exact Nat.le_refl _
      rw [ih z (i + 1) f (seen ++ [(i + 1, z)]) hpairs2 hlast2 hlen2 hseen2]
      rfl

/-- The rows of the `parent` CTE for the bottom of a single upward chain of
length at most 20 are the chain itself, enumerated from level 0. -/
theorem ancRows_chain (db : Db) (y : RefId) (xs : List RefId)
    (hs : (db.getElem? y).isSome = true)
    (hpairs : ∀ p ∈ (y :: xs).zip xs, db.nonSynParents p.1 = [p.2])
    (hlast : db.nonSynParents ((y :: xs).getLastD y) = [])
    (hlen : xs.length + 1 ≤ 20) :
    db.ancRows y = (y :: xs).enumFrom 0 := by
  unfold Db.ancRows
  obtain ⟨e, he⟩ := Option.isSome_iff_exists.mp hs
  rw [he]
  refine ancBfs_chain db xs y 0 20 [(0, y)] hpairs hlast hlen ?_
  intro q hq
  rw [List.mem_singleton] at hq
  subst hq
  exact Nat.le_refl _

/-- `find?` by level on an enumerated list is lookup by position. -/
theorem enumFrom_find (l : Nat) :
    ∀ (xs : List RefId) (i : Nat),
      (xs.enumFrom i).find? (fun p => p.1 = l) =
        if i ≤ l then (xs[l - i]?).map (fun x => (l, x)) else none := by
  intro xs
  induction xs with
  | nil =>
    intro i
    simp [List.enumFrom]
  | cons x rest ih =>
    intro i
    rw [List.enumFrom_cons]
    by_cases h : i = l
    · subst h
      rw [List.find?_cons_of_pos _ (by simp)]
      simp
    · rw [List.find?_cons_of_neg _ (by simp [h]), ih (i + 1)]
      by_cases hle : i ≤ l
      · have h1 : i + 1 ≤ l := by omega
        rw [if_pos h1, if_pos hle]
        have h2 : l - i = l - (i + 1) + 1 := by omega
        rw [h2, List.getElem?_cons_succ]
      · have h1 : ¬ (i + 1 ≤ l) := by omega
        rw [if_neg h1, if_neg hle]

/-- Filtering a long-enough `range` through positional lookup is a
`filterMap` over the looked-up list. -/
theorem range_filterMap_get {α β : Type} (f : α → Option β) :
    ∀ (N : Nat) (xs : List α), xs.length ≤ N →
      (List.range N).filterMap (fun l => (xs[l]?).bind f) = xs.filterMap f := by
  intro N
  induction N with
  | zero =>
    intro xs h
    have hx : xs = [] := List.length_eq_zero.mp (Nat.le_zero.mp h)
    subst hx
    rfl
  | succ n ih =>
    intro xs h
    cases xs with
    | nil =>
      have hone : (fun l : Nat => (([] : List α)[l]?).bind f) = fun _ => (none : Option β) := by
        funext l
        rfl
      rw [hone]
      simp only [List.filterMap_nil]
      exact List.filterMap_eq_nil_iff.mpr fun a _ => rfl
    | cons x rest =>
      rw [List.range_succ_eq_map]
      simp only [List.filterMap_cons, List.filterMap_map]
      have hcomp : ((fun l => ((x :: rest)[l]?).bind f) ∘ Nat.succ) =
          (fun l : Nat => (rest[l]?).bind f) := by
        funext l
        simp only [Function.comp_apply, Nat.succ_eq_add_one, List.getElem?_cons_succ]
      rw [hcomp]
      rw [ih rest (by simp only [List.length_cons] at h; omega)]
      rw [List.getElem?_cons_zero]
      rfl

/-- Under single-chain CTE rows, the node list of `refid_to_target` is the
per-refid `(name, kind)` lookup along the chain. -/
theorem ancNodes_chain (db : Db) (y : RefId) (xs : List RefId)
    (hrows : db.ancRows y = (y :: xs).enumFrom 0)
    (hlen : xs.length + 1 ≤ 20) :
    db.ancNodes y =
      (y :: xs).filterMap (fun x => (db.getElem? x).map (fun e => (e.name, e.kind))) := by
  unfold Db.ancNodes
  rw [hrows]
  dsimp only
  have hfun : (fun l => (((y :: xs).enumFrom 0).find? (fun p => p.1 = l)).bind
      (fun p => (db.getElem? p.2).map (fun e => (e.name, e.kind)))) =
      (fun l => ((y :: xs)[l]?).bind
        (fun x => (db.getElem? x).map (fun e => (e.name, e.kind)))) := by
    funext l
    rw [enumFrom_find l (y :: xs) 0]
    rw [if_pos (Nat.zero_le l)]
    rw [show l - 0 = l from rfl]
    cases (y :: xs)[l]? <;> rfl
  rw [hfun]
  refine range_filterMap_get _ 21 (y :: xs) ?_
  simp only [List.length_cons]
  omega

/-- A `filterMap` of total per-refid lookups is a `map` through the
defaulted name/kind accessors. -/
theorem filterMap_info (db : Db) :
    ∀ (l : List RefId), (∀ x ∈ l, (db.getElem? x).isSome = true) →
      l.filterMap (fun x => (db.getElem? x).map (fun e => (e.name, e.kind))) =
        l.map (fun x => (nmOf db x, kindOf db x)) := by
  intro l
  induction l with
  | nil => intro _; rfl
  | cons x rest ih =>
    intro h
    obtain ⟨e, he⟩ := Option.isSome_iff_exists.mp (h x (List.mem_cons_self x rest))
    have hx : Option.map (fun e => (e.name, e.kind)) (db.getElem? x) = some (e.name, e.kind) := by
      rw [he]
      rfl
    simp only [List.filterMap_cons, List.map_cons, hx]
    rw [ih (fun x2 hx2 => h x2 (List.mem_cons_of_mem _ hx2))]
    have hn : nmOf db x = e.name := by simp [nmOf, he]
    have hk : kindOf db x = e.kind := by simp [kindOf, he]
    rw [hn, hk]

/-- If the key column is duplicate-free and every FILE row matching the
filter carries key `v`, the root query of the `follow` CTE returns exactly
`[v]`. -/
theorem rootsFilterMap_single (pf : Option PStr) (v : RefId) (ef : Element) :
    ∀ (l : List Element),
      (l.map Element.key).Nodup →
      ef ∈ l → ef.key = v → ef.kind = Kind.FILE → matchPath ef.name pf = true →
      (∀ e ∈ l, e.kind = Kind.FILE → matchPath e.name pf = true → e.key = v) →
      l.filterMap (fun e =>
        if e.kind = Kind.FILE ∧ matchPath e.name pf then some e.key else none) = [v] := by
  intro l
  induction l with
  | nil =>
    intro _ hmem _ _ _ _
    exact absurd hmem (List.not_mem_nil ef)
  | cons a t ih =>
    intro hnodup hmem hkey hkind hmatch hall
    have hnodup2 : (a.key :: t.map Element.key).Nodup := by
      rw [List.map_cons] at hnodup
      exact hnodup
    have hnd := List.nodup_cons.mp hnodup2
    by_cases hc : a.kind = Kind.FILE ∧ matchPath a.name pf = true
    · have hak : a.key = v := hall a (List.mem_cons_self a t) hc.1 hc.2
      have hfa : (if a.kind = Kind.FILE ∧ matchPath a.name pf then some a.key else none) =
          some v := by
        rw [if_pos hc, hak]
      simp only [List.filterMap_cons, hfa]
      have ht : t.filterMap (fun e =>
          if e.kind = Kind.FILE ∧ matchPath e.name pf then some e.key else none) = [] := by
        refine List.filterMap_eq_nil_iff.mpr ?_
        intro e het
        by_cases hce : e.kind = Kind.FILE ∧ matchPath e.name pf = true
        · exfalso
          have hek : e.key = v := hall e (List.mem_cons_of_mem a het) hce.1 hce.2
          refine hnd.1 ?_
          rw [hak, ← hek]
          exact List.mem_map_of_mem Element.key het
        · exact if_neg hce
      rw [ht]
    · have hane : ef ≠ a := by
        intro hq
        refine hc ⟨?_, ?_⟩
        · rw [← hq]; exact hkind
        · rw [← hq]; exact hmatch
      have hmt : ef ∈ t := by
        rcases List.mem_cons.mp hmem with hq | hq
        · exact absurd hq hane
        · exact hq
      have hfa : (if a.kind = Kind.FILE ∧ matchPath a.name pf then some a.key else none) =
          none := if_neg hc
      simp only [List.filterMap_cons, hfa]
      exact ih hnd.2 hmt hkey hkind hmatch (fun e he => hall e (List.mem_cons_of_mem a he))

/-- Wrapper of `rootsFilterMap_single` for `followRoots`. -/
theorem followRoots_single (db : Db) (pf : Option PStr) (v : RefId) (ef : Element)
    (hnodup : (db.elements.map Element.key).Nodup)
    (hmem : ef ∈ db.elements) (hkey : ef.key = v) (hkind : ef.kind = Kind.FILE)
    (hmatch : matchPath ef.name pf = true)
    (hall : ∀ e ∈ db.elements, e.kind = Kind.FILE → matchPath e.name pf = true →
      e.key = v) :
    db.followRoots pf = [v] :=
  rootsFilterMap_single pf v ef db.elements hnodup hmem hkey hkind hmatch hall

/-- Under the same uniqueness conditions, the FILE rows matching the filter
are exactly the one stored row. -/
theorem filesFilter_single (pf : Option PStr) (v : RefId) (ef : Element) :
    ∀ (l : List Element),
      (l.map Element.key).Nodup →
      ef ∈ l → ef.key = v → ef.kind = Kind.FILE → matchPath ef.name pf = true →
      (∀ e ∈ l, e.kind = Kind.FILE → matchPath e.name pf = true → e.key = v) →
      l.filter (fun e => e.kind = Kind.FILE ∧ matchPath e.name pf) = [ef] := by
  intro l
  induction l with
  | nil =>
    intro _ hmem _ _ _ _
    exact absurd hmem (List.not_mem_nil ef)
  | cons a t ih =>
    intro hnodup hmem hkey hkind hmatch hall
    have hnodup2 : (a.key :: t.map Element.key).Nodup := by
      rw [List.map_cons] at hnodup
      exact hnodup
    have hnd := List.nodup_cons.mp hnodup2
    by_cases hc : a.kind = Kind.FILE ∧ matchPath a.name pf = true
    · have hak : a.key = v := hall a (List.mem_cons_self a t) hc.1 hc.2
      have haef : a = ef := by
        by_contra hne
        have hmt : ef ∈ t := by
          rcases List.mem_cons.mp hmem with hq | hq
          · exact absurd hq.symm hne
          · exact hq
        refine hnd.1 ?_
        rw [hak, ← hkey]
        exact List.mem_map_of_mem Element.key hmt
      simp only [List.filter_cons, decide_eq_true hc, if_true]
      have ht : t.filter (fun e => e.kind = Kind.FILE ∧ matchPath e.name pf) = [] := by
        refine List.filter_eq_nil_iff.mpr ?_
        intro e het hpe
        have hce : e.kind = Kind.FILE ∧ matchPath e.name pf = true := of_decide_eq_true hpe
        have hek : e.key = v := hall e (List.mem_cons_of_mem a het) hce.1 hce.2
        refine hnd.1 ?_
        rw [hak, ← hek]
        exact List.mem_map_of_mem Element.key het
      rw [ht, haef]
    · have hane : ef ≠ a := by
        intro hq
        refine hc ⟨?_, ?_⟩
        · rw [← hq]; exact hkind
        · rw [← hq]; exact hmatch
      have hmt : ef ∈ t := by
        rcases List.mem_cons.mp hmem with hq | hq
        · exact absurd hq hane
        · exact hq
      simp only [List.filter_cons, decide_eq_false hc, Bool.false_eq_true, if_false]
      exact ih hnd.2 hmt hkey hkind hmatch (fun e he => hall e (List.mem_cons_of_mem a he))

/-- Shape of `refid_to_target` on a single FILE node whose name matches a
unique stored file. -/
theorem refidToTarget_single_file (db : Db) (y : RefId) (p0 : PStr × Kind)
    (hnodes : db.ancNodes y = [p0])
    (hk : p0.2 = Kind.FILE)
    (hmatch1 : (db.elements.filter (fun e =>
        e.kind = Kind.FILE ∧ matchPath e.name (some p0.1))).length = 1) :
    db.refidToTarget y = .ok ⟨some p0.1, ['*']⟩ := by
  unfold Db.refidToTarget
  rw [hnodes]
  dsimp only
  have hcond : ¬ ((([p0] : List (PStr × Kind)).getLastD p0).2 ≠ Kind.FILE) := by
    simp [hk]
  rw [if_neg hcond, if_pos rfl, hmatch1, if_pos rfl]

/-- Shape of `refid_to_target` on a chain of at least two nodes ending in a
FILE node. -/
theorem refidToTarget_of_nodes (db : Db) (y : RefId) (p0 pz : PStr × Kind)
    (mid : List (PStr × Kind))
    (hnodes : db.ancNodes y = p0 :: (mid ++ [pz]))
    (hkz : pz.2 = Kind.FILE) :
    db.refidToTarget y =
      .ok ⟨some pz.1, List.intercalate [':', ':'] (((p0 :: mid).map Prod.fst).reverse)⟩ := by
  unfold Db.refidToTarget
  rw [hnodes]
  dsimp only
  have hgl : ((p0 :: (mid ++ [pz])).getLastD p0) = pz := by
    rw [show (p0 :: (mid ++ [pz])) = ((p0 :: mid) ++ [pz]) from rfl]
    exact List.getLastD_concat _ _ _
  rw [hgl]
  rw [if_neg (by simp [hkz])]
  rw [if_neg (by simp)]
  have hdrop : ((p0 :: (mid ++ [pz])).dropLast) = p0 :: mid := by
    rw [show (p0 :: (mid ++ [pz])) = ((p0 :: mid) ++ [pz]) from rfl]
    exact List.dropLast_concat
  rw [hdrop]

/-- Candidate set of a target whose component split is known and which does
not use the `*` sentinel. -/
theorem candList_of_comps (db : Db) (t : Target) (L : List PStr)
    (hc : t.nameComponents = L)
    (hnostar : ¬ (L.length = 1 ∧ t.name = ['*'])) :
    db.candList t = (db.followLevel t.path L L.length).dedup := by
  unfold Db.candList
  dsimp only
  rw [hc, if_neg hnostar]

/-- Two positionally consecutive entries of a list form a zip-with-tail
pair. -/
theorem zip_mem_of_getElem (l : List RefId) :
    ∀ (i : Nat) (a b : RefId), l[i]? = some a → l[i + 1]? = some b →
      (a, b) ∈ l.zip l.tail := by
  induction l with
  | nil =>
    intro i a b ha _
    rw [List.getElem?_nil] at ha
    exact absurd ha (by simp)
  | cons x rest ih =>
    intro i a b ha hb
    cases i with
    | zero =>
      rw [List.getElem?_cons_zero] at ha
      have hx : x = a := Option.some.inj ha
      rw [List.getElem?_cons_succ] at hb
      cases rest with
      | nil =>
        rw [List.getElem?_nil] at hb
        exact absurd hb (by simp)
      | cons r rt =>
        rw [List.getElem?_cons_zero] at hb
        have hr : r = b := Option.some.inj hb
        subst hx
        subst hr
        simp only [List.tail_cons, List.zip_cons_cons]
        exact List.mem_cons_self _ _
    | succ j =>
      rw [List.getElem?_cons_succ] at ha
      rw [List.getElem?_cons_succ] at hb
      have hmem := ih j a b ha hb
      cases rest with
      | nil =>
        rw [List.getElem?_nil] at ha
        exact absurd ha (by simp)
      | cons r rt =>
        simp only [List.tail_cons, List.zip_cons_cons]
        refine List.mem_cons_of_mem _ ?_
        simpa using hmem

/-- Unfolding of `followLevel` at a successor level. -/
theorem followLevel_succ (db : Db) (pf : Option PStr) (compos : List PStr) (i : Nat) :
    db.followLevel pf compos (i + 1) =
      match compos[i]? with
      | some cp => (db.followLevel pf compos i).flatMap (fun f => db.followStep f cp)
      | none => [] := rfl

/-- On a store whose `follow` relation realises a single downward chain
(root first), the CTE rows at level `k` are exactly the chain entry at
position `k`. -/
theorem followLevel_chain (db : Db) (pf : Option PStr) (r0 : RefId) (dr : List RefId)
    (hroots : db.followRoots pf = [r0])
    (hstep : ∀ (k : Nat) (a b : RefId), (r0 :: dr)[k]? = some a →
      (r0 :: dr)[k + 1]? = some b → db.followStep a (nmOf db b) = [b]) :
    ∀ (k : Nat) (b : RefId), (r0 :: dr)[k]? = some b →
      db.followLevel pf (dr.map (nmOf db)) k = [b] := by
  intro k
  induction k with
  | zero =>
    intro b hb
    rw [List.getElem?_cons_zero] at hb
    obtain rfl := Option.some.inj hb
    exact hroots
  | succ n ih =>
    intro b hb
    have hb2 : dr[n]? = some b := by
      rw [List.getElem?_cons_succ] at hb
      exact hb
    obtain ⟨hk1, -⟩ := List.getElem?_eq_some.mp hb
    have hn : n < (r0 :: dr).length := by omega
    obtain ⟨a, ha⟩ : ∃ a, (r0 :: dr)[n]? = some a :=
      ⟨_, List.getElem?_eq_getElem hn⟩
    have hcomp : (dr.map (nmOf db))[n]? = some (nmOf db b) := by
      rw [List.getElem?_map, hb2]
      rfl
    simp only [followLevel_succ, hcomp]
    rw [ih a ha]
    simp only [List.flatMap_cons, List.flatMap_nil, List.append_nil]
    exact hstep n a b ha hb

/-- `resolve_target` with no scope on a singleton candidate set returns the
candidate. -/
theorem resolveTarget_single (db : Db) (t : Target) (c : RefId)
    (h : db.candList t = [c]) : db.resolveTarget t none = .ok c := by
  unfold Db.resolveTarget
  rw [resolveRows_spec, h]
  simp only [Option.getD_none, Option.isSome_none]
  by_cases hs : db.inScope c ⟨[], []⟩ = true
  · have hf1 : [c].filter (fun x => db.inScope x ⟨[], []⟩) = [c] := by simp [hs]
    have hf2 : [c].filter (fun x => ¬ db.inScope x ⟨[], []⟩) = [] := by simp [hs]
    rw [hf1, hf2]
    rfl
  · rw [Bool.not_eq_true] at hs
    have hf1 : [c].filter (fun x => db.inScope x ⟨[], []⟩) = [] := by simp [hs]
    have hf2 : [c].filter (fun x => ¬ db.inScope x ⟨[], []⟩) = [c] := by simp [hs]
    rw [hf1, hf2]
    rfl

/-- C2: for an entity stored on an unambiguous hierarchy chain that ends at
a FILE-kind root — each chain entry has exactly that one non-synthetic
parent, the root has none and is the only file whose name matches its own
path filter, every step child is unique for its bare name, keys are
duplicate-free, the chain fits the CTE row cap of 20, names survive the
`::`-split round-trip and avoid the `*` sentinel — `resolve_target`
applied to the target produced by `refid_to_target` (with no scope) returns
the original refid. -/
theorem c2_roundtrip :
    ∀ (db : Db) (y : RefId) (xs : List RefId),
      (∀ x ∈ y :: xs, (db.getElem? x).isSome = true) →
      (∀ p ∈ (y :: xs).zip xs, db.nonSynParents p.1 = [p.2]) →
      db.nonSynParents ((y :: xs).getLastD y) = [] →
      xs.length + 1 ≤ 20 →
      kindOf db ((y :: xs).getLastD y) = Kind.FILE →
      (db.elements.map Element.key).Nodup →
      (∀ e ∈ db.elements, e.kind = Kind.FILE →
        matchPath e.name (some (nmOf db ((y :: xs).getLastD y))) = true →
        e.key = (y :: xs).getLastD y) →
      (∀ p ∈ (y :: xs).zip xs, db.followStep p.2 (nmOf db p.1) = [p.1]) →
      (xs ≠ [] →
        splitOn2 ':' ':' (List.intercalate [':', ':']
          (((y :: xs).dropLast.map (nmOf db)).reverse)) =
          ((y :: xs).dropLast.map (nmOf db)).reverse) →
      (∀ x ∈ (y :: xs).dropLast, nmOf db x ≠ ['*']) →
      ∃ t, db.refidToTarget y = .ok t ∧ db.resolveTarget t none = .ok y := by
  intro db y xs hsome hpairs hlast hlen hfile hnodup hroot hchild hsplit hstar
  have hrows := ancRows_chain db y xs (hsome y (List.mem_cons_self y xs)) hpairs hlast hlen
  have hnodes : db.ancNodes y = (y :: xs).map (fun x => (nmOf db x, kindOf db x)) := by
    rw [ancNodes_chain db y xs hrows hlen]
    exact filterMap_info db (y :: xs) hsome
  have hlmem : (y :: xs).getLastD y ∈ y :: xs := by
    rw [List.getLastD_cons]
    exact List.getLastD_mem_cons xs y
  obtain ⟨ef, hef⟩ := Option.isSome_iff_exists.mp (hsome _ hlmem)
  obtain ⟨hefmem, hefkey⟩ := getElem?_mem_key hef
  have hefkind : ef.kind = Kind.FILE := by
    have hke : kindOf db ((y :: xs).getLastD y) = ef.kind := by
      unfold kindOf
      rw [hef]
      rfl
    rw [← hke]
    exact hfile
  have hefname : nmOf db ((y :: xs).getLastD y) = ef.name := by
    unfold nmOf
    rw [hef]
    rfl
  rcases List.eq_nil_or_concat xs with hnil | ⟨zs, z, hcat⟩
  · subst hnil
    have hld : ((y :: ([] : List RefId)).getLastD y) = y := rfl
    rw [hld] at hefkey hefname hfile hroot
    simp only [List.map_cons, List.map_nil] at hnodes
    have hfilter : db.elements.filter (fun e =>
        e.kind = Kind.FILE ∧ matchPath e.name (some (nmOf db y))) = [ef] := by
      refine filesFilter_single (some (nmOf db y)) y ef db.elements hnodup hefmem
        hefkey hefkind ?_ hroot
      rw [hefname]
      exact matchPath_refl ef.name
    have htgt : db.refidToTarget y = .ok ⟨some (nmOf db y), ['*']⟩ := by
      refine refidToTarget_single_file db y (nmOf db y, kindOf db y) hnodes hfile ?_
      show (db.elements.filter (fun e =>
        e.kind = Kind.FILE ∧ matchPath e.name (some (nmOf db y)))).length = 1
      rw [hfilter]
      rfl
    have hcand : db.candList ⟨some (nmOf db y), ['*']⟩ = [y] := by
      have hstart : db.candList ⟨some (nmOf db y), ['*']⟩ =
          (db.followRoots (some (nmOf db y))).dedup := rfl
      rw [hstart]
      rw [followRoots_single db (some (nmOf db y)) y ef hnodup hefmem hefkey hefkind
        (by rw [hefname]; exact matchPath_refl ef.name) hroot]
      rw [List.dedup_cons_of_not_mem (List.not_mem_nil y), List.dedup_nil]
    exact ⟨_, htgt, resolveTarget_single db _ y hcand⟩
  · rw [List.concat_eq_append] at hcat
    subst hcat
    have hld : ((y :: (zs ++ [z])).getLastD y) = z := by
      rw [show (y :: (zs ++ [z])) = ((y :: zs) ++ [z]) from rfl]
      exact List.getLastD_concat _ _ _
    rw [hld] at hefkey hefname hfile hroot
    have hdl : (y :: (zs ++ [z])).dropLast = y :: zs := by
      rw [show (y :: (zs ++ [z])) = ((y :: zs) ++ [z]) from rfl]
      exact List.dropLast_concat
    rw [hdl] at hsplit hstar
    have hne2 : zs ++ [z] ≠ ([] : List RefId) := by simp
    have hsplit2 := hsplit hne2
    simp only [List.map_cons, List.map_append, List.map_nil] at hnodes
    have htgt0 := refidToTarget_of_nodes db y (nmOf db y, kindOf db y)
      (nmOf db z, kindOf db z) (zs.map (fun x => (nmOf db x, kindOf db x))) hnodes hfile
    have hmapfst : (((nmOf db y, kindOf db y) ::
        zs.map (fun x => (nmOf db x, kindOf db x))).map Prod.fst) =
        (y :: zs).map (nmOf db) := by
      rw [List.map_cons, List.map_map, List.map_cons]
      rfl
    rw [hmapfst] at htgt0
    have htgt : db.refidToTarget y = .ok ⟨some (nmOf db z),
        List.intercalate [':', ':'] (((y :: zs).map (nmOf db)).reverse)⟩ := htgt0
    have hroots : db.followRoots (some (nmOf db z)) = [z] := by
      refine followRoots_single db (some (nmOf db z)) z ef hnodup hefmem hefkey
        hefkind ?_ hroot
      rw [hefname]
      exact matchPath_refl ef.name
    have hstep2 : ∀ (k : Nat) (a b : RefId),
        (z :: (y :: zs).reverse)[k]? = some a →
        (z :: (y :: zs).reverse)[k + 1]? = some b →
        db.followStep a (nmOf db b) = [b] := by
      intro k a b ha hb
      have hrev : (z :: (y :: zs).reverse) = (y :: (zs ++ [z])).reverse := by
        rw [show (y :: (zs ++ [z])) = ((y :: zs) ++ [z]) from rfl, List.reverse_append]
        rfl
      rw [hrev] at ha hb
      obtain ⟨hk1r, -⟩ := List.getElem?_eq_some.mp hb
      rw [List.length_reverse] at hk1r
      have hk0 : k < (y :: (zs ++ [z])).length := by omega
      rw [List.getElem?_reverse hk0] at ha
      rw [List.getElem?_reverse hk1r] at hb
      have hidx : (y :: (zs ++ [z])).length - 1 - k =
          ((y :: (zs ++ [z])).length - 1 - (k + 1)) + 1 := by omega
      rw [hidx] at ha
      have hpair := zip_mem_of_getElem (y :: (zs ++ [z]))
        ((y :: (zs ++ [z])).length - 1 - (k + 1)) b a hb ha
      exact hchild (b, a) hpair
    have hgety : (z :: (y :: zs).reverse)[zs.length + 1]? = some y := by
      rw [List.getElem?_cons_succ]
      have hlt : zs.length < (y :: zs).length := by
        simp only [List.length_cons]
        omega
      rw [List.getElem?_reverse hlt]
      rw [show (y :: zs).length - 1 - zs.length = 0 from by
        simp only [List.length_cons]; omega]
      rw [List.getElem?_cons_zero]
    have hchain := followLevel_chain db (some (nmOf db z)) z ((y :: zs).reverse)
      hroots hstep2 (zs.length + 1) y hgety
    have hLr : ((y :: zs).reverse).map (nmOf db) = ((y :: zs).map (nmOf db)).reverse :=
      List.map_reverse _ _
    rw [hLr] at hchain
    have hnostar : ¬ ((((y :: zs).map (nmOf db)).reverse).length = 1 ∧
        List.intercalate [':', ':'] (((y :: zs).map (nmOf db)).reverse) = ['*']) := by
      rintro ⟨hlen1, hname⟩
      have hLeq : ((y :: zs).map (nmOf db)).reverse = [['*']] := by
        rw [← hsplit2, hname]
        rfl
      have hmem2 : (['*'] : PStr) ∈ ((y :: zs).map (nmOf db)).reverse := by
        rw [hLeq]
        exact List.mem_cons_self _ _
      rw [List.mem_reverse] at hmem2
      obtain ⟨x, hx, hxe⟩ := List.mem_map.mp hmem2
      exact hstar x hx hxe
    have hcand0 := candList_of_comps db
      ⟨some (nmOf db z), List.intercalate [':', ':'] (((y :: zs).map (nmOf db)).reverse)⟩
      (((y :: zs).map (nmOf db)).reverse) hsplit2 hnostar
    have hLlen : ((((y :: zs).map (nmOf db)).reverse)).length = zs.length + 1 := by
      simp
    rw [hLlen, hchain] at hcand0
    rw [List.dedup_cons_of_not_mem (List.not_mem_nil y), List.dedup_nil] at hcand0
    exact ⟨_, htgt, resolveTarget_single db _ y hcand0⟩

/-- Concrete instantiation of `c2_roundtrip`: the member `bar` of struct
`Foo` in file `a.h` of the sample store round-trips through
`refid_to_target` and `resolve_target`. -/
theorem c2_roundtrip_witness :
    ∃ t, sampleDb.refidToTarget memBar = .ok t ∧
      sampleDb.resolveTarget t none = .ok memBar :=
  c2_roundtrip sampleDb memBar [structFoo, fileA]
    (by decide) (by decide) (by decide) (by decide) (by decide)
    (by decide) (by decide) (by decide) (by decide) (by decide)
